import Mathlib

/-!
Verification of the task-executor core of `cuenv` (src/src/task_executor.rs)
against its natural-language specification.

The Rust code is shallowly embedded:
* `HashMap<String, V>` is modelled as an association list `List (String × V)`
  with distinct keys; list order models iteration order (for the std `HashMap`
  the real iteration order is unspecified, which is relevant only to claims
  about ordering and is discussed at those claims).
* `HashSet<String>` is modelled as a `List String` used only through
  membership, insertion and removal.
* Recursion in `collect_dependencies` and the Kahn queue loop of
  `topological_sort` is embedded with an explicit fuel argument; the fuel
  chosen by the callers is large enough that the fuel-exhaustion branch is
  unreachable (for `collect_dependencies` this is proved where a claim
  depends on it).
* `usize` in-degree counters are modelled as `Int`: the only subtraction the
  code performs on them keeps the observable behaviour identical (a counter
  that would wrap in release mode can never return to `0` within one run,
  exactly like a negative `Int`).
* Process spawning is an effect; it is made explicit by passing a `Spawner`
  oracle and returning the list of spawn calls actually performed.
-/

/-! ## Association-list model of `HashMap` / `HashSet` -/

/-- `HashMap::get` on the association-list model. -/
def lookupA {α : Type} : List (String × α) → String → Option α
  | [], _ => none
  | p :: rest, k => if p.1 = k then some p.2 else lookupA rest k

/-- `HashMap::contains_key`. -/
def containsKey {α : Type} (m : List (String × α)) (k : String) : Bool :=
  (lookupA m k).isSome

/-- The key list of an association list, in iteration order. -/
def keysOf {α : Type} (m : List (String × α)) : List String :=
  m.map Prod.fst

/-- `HashMap::insert` for a key that may or may not be present: replaces the
value in place, otherwise appends (modelling insertion order). -/
def insertA {α : Type} (m : List (String × α)) (k : String) (v : α) : List (String × α) :=
  if containsKey m k then m.map (fun p => if p.1 = k then (p.1, v) else p) else m ++ [(k, v)]

/-- `HashMap::entry(k).or_insert(v)`. -/
def entryOr {α : Type} (m : List (String × α)) (k : String) (v : α) : List (String × α) :=
  if containsKey m k then m else m ++ [(k, v)]

/-- Overwrite the value stored at a present key (`*map.get_mut(k) = v`). -/
def setVal {α : Type} (m : List (String × α)) (k : String) (v : α) : List (String × α) :=
  m.map (fun p => if p.1 = k then (p.1, v) else p)

/-! ## Data model (`TaskConfig` from `cue_parser`, used by `task_executor.rs`) -/

/-- A filesystem path, modelled structurally after `std::path::PathBuf`:
an absoluteness flag plus the list of normal components. `PathBuf::push`
documents that pushing an absolute path replaces the receiver entirely. -/
structure RustPath where
  absolute : Bool
  components : List String
deriving DecidableEq, Repr

/-- `PathBuf::push` (documented std semantics). -/
def pushPath (base child : RustPath) : RustPath :=
  if child.absolute then child else ⟨base.absolute, base.components ++ child.components⟩

/-- The task definition consumed by `task_executor.rs` (fields as constructed
in the repository's tests; `security` is irrelevant to the executor and
carried as an opaque optional string). -/
structure TaskConfig where
  description : Option String := none
  command : Option String := none
  script : Option String := none
  dependencies : Option (List String) := none
  working_dir : Option RustPath := none
  shell : Option String := none
  inputs : Option (List String) := none
  outputs : Option (List String) := none
  security : Option String := none
  cache : Option Bool := none
  cache_key : Option String := none
  timeout : Option Nat := none
deriving DecidableEq, Repr

abbrev TaskMap := List (String × TaskConfig)
abbrev DepMap := List (String × List String)

/-- The errors produced by the embedded functions.

* `configuration msg` models `Error::configuration(msg)`.
* `commandExecution shell payload` models `Error::command_execution(..)`
  raised when `cmd.output()` itself fails (only the fields the claims need
  are carried).
* `fuelOut` is the artefact of the fuel embedding of recursion; it is
  unreachable for the fuel the callers pass (proved where needed).
* `panicUnwrap` models the `plan.tasks.get(name).unwrap()` panic in
  `execute_tasks_with_dependencies`; it is unreachable for plans produced by
  `build_execution_plan`. -/
inductive ExecError where
  | configuration (msg : String)
  | commandExecution (shell : String) (payload : String)
  | fuelOut
  | panicUnwrap
deriving DecidableEq, Repr

/-- `TaskExecutionPlan` (task_executor.rs lines 11-17). -/
structure TaskExecutionPlan where
  levels : List (List String)
  tasks : TaskMap
deriving DecidableEq, Repr

/-! ## `collect_dependencies` (task_executor.rs lines 153-198) -/

/-- The mutable state threaded through `collect_dependencies`:
the output adjacency map, the `visited` set and the DFS `stack` set. -/
structure CollectState where
  taskDependencies : DepMap
  visited : List String
  stack : List String
deriving DecidableEq, Repr

/-- `collect_dependencies` (lines 153-198), with fuel making the recursion
structural. The dependency loop (lines 182-191) is the `foldlM` over
`Except`: it checks that each dependency exists, then recurses, aborting on
the first error exactly like the Rust `for` loop with `?`. -/
def collectDependencies (allTasks : TaskMap) (fuel : Nat) (taskName : String)
    (st : CollectState) : Except ExecError CollectState :=
  match fuel with
  | 0 => .error .fuelOut
  | f + 1 =>
    if taskName ∈ st.stack then
      .error (.configuration ("Circular dependency detected involving task '" ++ taskName ++ "'"))
    else if taskName ∈ st.visited then
      .ok st
    else
      let st1 : CollectState := { st with stack := taskName :: st.stack }
      match lookupA allTasks taskName with
      | none => .error (.configuration ("Task '" ++ taskName ++ "' not found"))
      | some cfg =>
        let dependencies := cfg.dependencies.getD []
        match dependencies.foldlM
            (fun st2 dep =>
              if containsKey allTasks dep then
                collectDependencies allTasks f dep st2
              else
                .error (.configuration
                  ("Dependency '" ++ dep ++ "' of task '" ++ taskName ++ "' not found")))
            st1 with
        | .error e => .error e
        | .ok st2 =>
          .ok ⟨insertA st2.taskDependencies taskName dependencies,
               taskName :: st2.visited,
               st2.stack.erase taskName⟩

/-! ## `topological_sort` (task_executor.rs lines 201-256) -/

/-- `graph.entry(dep).or_insert_with(Vec::new).push(task)`. -/
def pushDependent (g : DepMap) (dep task : String) : DepMap :=
  (entryOr g dep []).map (fun p => if p.1 = dep then (p.1, p.2 ++ [task]) else p)

/-- `*in_degree.get_mut(task).unwrap() += 1` (the entry is always present). -/
def addDeg (m : List (String × Int)) (task : String) : List (String × Int) :=
  m.map (fun p => if p.1 = task then (p.1, p.2 + 1) else p)

/-- The initialization loop of `topological_sort` (lines 205-215): builds the
in-degree map and the dependents ("graph") map in one pass. -/
def topoInit (dependencies : DepMap) : List (String × Int) × DepMap :=
  dependencies.foldl
    (fun acc entry =>
      let ind := entryOr acc.1 entry.1 0
      let g := entryOr acc.2 entry.1 []
      entry.2.foldl
        (fun acc2 dep =>
          let ind2 := entryOr acc2.1 dep 0
          let g2 := pushDependent acc2.2 dep entry.1
          (addDeg ind2 entry.1, g2))
        (ind, g))
    ([], [])

/-- One dependent update inside the drain loop (lines 233-240): decrement the
dependent's in-degree if it is tracked, enqueueing it when it reaches zero. -/
def decrementDependent (st : List (String × Int) × List String) (dependent : String) :
    List (String × Int) × List String :=
  match lookupA st.1 dependent with
  | none => st
  | some deg =>
    let ind := setVal st.1 dependent (deg - 1)
    if deg - 1 = 0 then (ind, st.2 ++ [dependent]) else (ind, st.2)

/-- Processing one drained task (lines 231-242): walk its dependents. -/
def processTask (graph : DepMap) (st : List (String × Int) × List String)
    (task : String) : List (String × Int) × List String :=
  match lookupA graph task with
  | none => st
  | some dependents => dependents.foldl decrementDependent st

/-- The `while !queue.is_empty()` drain loop (lines 224-245), fueled. Each
iteration drains the whole queue as the next level, then decrements the
dependents of every drained task. -/
def topoLoop (graph : DepMap) : Nat → List (String × Int) → List String →
    List (List String) → List (List String)
  | 0, _, _, levels => levels
  | f + 1, ind, queue, levels =>
    if queue.isEmpty then levels
    else
      let next := queue.foldl (processTask graph) (ind, [])
      topoLoop graph f next.1 next.2 (levels ++ [queue])

/-- `topological_sort` (lines 201-256). The fuel `ind.length + 1` bounds the
number of iterations: every iteration drains a nonempty queue and every node
is enqueued at most once, so the loop always stops by emptying the queue
before the fuel does. -/
def topological_sort (dependencies : DepMap) : Except ExecError (List (List String)) :=
  let init := topoInit dependencies
  let queue := (init.1.filter (fun p => p.2 == 0)).map Prod.fst
  let levels := topoLoop init.2 (init.1.length + 1) init.1 queue []
  let processedCount := (levels.map List.length).sum
  if processedCount ≠ dependencies.length then
    .error (.configuration "Circular dependency detected in task graph")
  else
    .ok levels

/-! ## `build_execution_plan` (task_executor.rs lines 107-150) -/

/-- The root-validation loop (lines 111-118): first requested task that is
absent from the configuration, if any. -/
def firstMissingRoot (allTasks : TaskMap) : List String → Option String
  | [] => none
  | n :: rest => if containsKey allTasks n then firstMissingRoot allTasks rest else some n

/-- The loop over requested roots (lines 125-133), threading the shared
`visited`/`stack`/adjacency state through `collect_dependencies`. -/
def collectRootsLoop (allTasks : TaskMap) (fuel : Nat) :
    List String → CollectState → Except ExecError CollectState
  | [], st => .ok st
  | n :: rest, st =>
    match collectDependencies allTasks fuel n st with
    | .error e => .error e
    | .ok st' => collectRootsLoop allTasks fuel rest st'

/-- The plan-tasks loop (lines 139-144): copy each collected task's
configuration out of the full task map. -/
def planTasksOf (allTasks : TaskMap) (names : List String) : TaskMap :=
  names.foldl
    (fun acc name =>
      match lookupA allTasks name with
      | some cfg => insertA acc name cfg
      | none => acc)
    []

/-- `build_execution_plan` (lines 107-150). The collect fuel
`allTasks.length + 1` exceeds the deepest possible DFS stack. -/
def build_execution_plan (allTasks : TaskMap) (taskNames : List String) :
    Except ExecError TaskExecutionPlan :=
  match firstMissingRoot allTasks taskNames with
  | some missing => .error (.configuration ("Task '" ++ missing ++ "' not found"))
  | none =>
    match collectRootsLoop allTasks (allTasks.length + 1) taskNames ⟨[], [], []⟩ with
    | .error e => .error e
    | .ok st =>
      match topological_sort st.taskDependencies with
      | .error e => .error e
      | .ok levels => .ok ⟨levels, planTasksOf allTasks (keysOf st.taskDependencies)⟩

/-! ## `execute_single_task` (task_executor.rs lines 259-322) -/

/-- A child-process invocation: `<shell> -c <payload>` in directory `dir`. -/
structure SpawnCall where
  shell : String
  payload : String
  dir : RustPath
deriving DecidableEq, Repr

/-- The outcome `cmd.output()` reports for an invocation: an exit status
(`none` when the platform reports no code, e.g. signal death) or a failure
to create the process at all. -/
inductive SpawnResult where
  | exited (code : Option Int)
  | spawnError
deriving DecidableEq, Repr

/-- The process-spawning effect, passed as an oracle. -/
abbrev Spawner := SpawnCall → SpawnResult

/-- Working-directory computation (lines 294-301): the dispatcher's directory
with the task's `working_dir` pushed onto it, if present. -/
def execDir (cfg : TaskConfig) (workingDir : RustPath) : RustPath :=
  match cfg.working_dir with
  | some taskWd => pushPath workingDir taskWd
  | none => workingDir

/-- Lines 303-321: run `<shell> -c <payload>`, returning the exit code
(`unwrap_or(1)` when no code is reported) or `Error::command_execution` when
spawning fails. The performed spawn call is returned alongside. -/
def runShell (spawn : Spawner) (shell payload : String) (dir : RustPath) :
    Except ExecError Int × List SpawnCall :=
  let call : SpawnCall := ⟨shell, payload, dir⟩
  match spawn call with
  | .exited code => (.ok (code.getD 1), [call])
  | .spawnError => (.error (.commandExecution shell payload), [call])

/-- `execute_single_task` (lines 259-322): payload assembly from
`command`/`script` (lines 265-292), then the invocation. The spawn calls
performed are returned explicitly (empty on a configuration error). -/
def execute_single_task (spawn : Spawner) (cfg : TaskConfig) (workingDir : RustPath)
    (args : List String) : Except ExecError Int × List SpawnCall :=
  match cfg.command, cfg.script with
  | some command, none =>
    let fullCommand :=
      if args.isEmpty then command else command ++ " " ++ String.intercalate " " args
    runShell spawn (cfg.shell.getD "sh") fullCommand (execDir cfg workingDir)
  | none, some script =>
    runShell spawn (cfg.shell.getD "sh") script (execDir cfg workingDir)
  | some _, some _ =>
    (.error (.configuration "Task cannot have both 'command' and 'script' defined"), [])
  | none, none =>
    (.error (.configuration "Task must have either 'command' or 'script' defined"), [])

/-! ## `execute_tasks_with_dependencies` (task_executor.rs lines 41-104)

The per-level `JoinSet` launches the level's tasks concurrently and awaits
them all; the shared `failed_tasks` vector collects `(name, status)` for
non-zero statuses and `(name, -1)` for `Err` results. The embedding processes
the level in level order (one completion order; the claims proved about it
are order-independent) and records the work done in a `DispatchTrace`. -/

/-- What the dispatcher observably did: which task units were launched and
which spawn calls each produced. -/
structure DispatchTrace where
  launched : List String
  spawns : List (String × SpawnCall)
deriving DecidableEq, Repr

/-- The level launch-and-collect (lines 55-90): each task unit looks up its
config (`unwrap`, modelled as `panicUnwrap`), runs `execute_single_task`, and
appends to `failed` on a non-zero status or on an error (synthetic `-1`). -/
def runLevel (spawn : Spawner) (tasks : TaskMap) (workingDir : RustPath)
    (args : List String) :
    List String → DispatchTrace → List (String × Int) →
    DispatchTrace × Except ExecError (List (String × Int))
  | [], tr, failed => (tr, .ok failed)
  | name :: rest, tr, failed =>
    match lookupA tasks name with
    | none => (tr, .error .panicUnwrap)
    | some cfg =>
      let r := execute_single_task spawn cfg workingDir args
      let tr' : DispatchTrace :=
        ⟨tr.launched ++ [name], tr.spawns ++ r.2.map (fun c => (name, c))⟩
      let failed' :=
        match r.1 with
        | .ok status => if status ≠ 0 then failed ++ [(name, status)] else failed
        | .error _ => failed ++ [(name, -1)]
      runLevel spawn tasks workingDir args rest tr' failed'

/-- The level loop (lines 50-101): run each level, and if any task of the
level failed, return `Error::configuration("Tasks failed: <names>")` without
touching later levels; after all levels, return `Ok(0)` (line 103). -/
def runLevels (spawn : Spawner) (tasks : TaskMap) (workingDir : RustPath)
    (args : List String) :
    List (List String) → DispatchTrace → DispatchTrace × Except ExecError Int
  | [], tr => (tr, .ok 0)
  | level :: rest, tr =>
    match runLevel spawn tasks workingDir args level tr [] with
    | (tr', .error e) => (tr', .error e)
    | (tr', .ok failed) =>
      if failed.isEmpty then
        runLevels spawn tasks workingDir args rest tr'
      else
        (tr', .error (.configuration
          ("Tasks failed: " ++ String.intercalate ", " (failed.map Prod.fst))))

/-- `execute_tasks_with_dependencies` (lines 41-104): build the plan, then
walk its levels. -/
def execute_tasks_with_dependencies (spawn : Spawner) (allTasks : TaskMap)
    (workingDir : RustPath) (taskNames args : List String) :
    DispatchTrace × Except ExecError Int :=
  match build_execution_plan allTasks taskNames with
  | .error e => (⟨[], []⟩, .error e)
  | .ok plan => runLevels spawn plan.tasks workingDir args plan.levels ⟨[], []⟩

/-! ## Association-list lemmas -/

theorem lookupA_nil {α : Type} (k : String) : lookupA ([] : List (String × α)) k = none := rfl

theorem lookupA_cons {α : Type} (p : String × α) (m : List (String × α)) (k : String) :
    lookupA (p :: m) k = if p.1 = k then some p.2 else lookupA m k := rfl

theorem lookupA_append {α : Type} (m₁ m₂ : List (String × α)) (k : String) :
    lookupA (m₁ ++ m₂) k =
      match lookupA m₁ k with
      | some v => some v
      | none => lookupA m₂ k := by
  induction m₁ with
  | nil => simp [lookupA]
  | cons p rest ih =>
    by_cases h : p.1 = k <;> simp [lookupA_cons, h, ih]

theorem containsKey_iff_mem_keysOf {α : Type} (m : List (String × α)) (k : String) :
    containsKey m k = true ↔ k ∈ keysOf m := by
  induction m with
  | nil => simp [containsKey, lookupA, keysOf]
  | cons p rest ih =>
    by_cases h : p.1 = k
    · simp [containsKey, lookupA_cons, h, keysOf]
    · simp only [containsKey, lookupA_cons, if_neg h, keysOf, List.map_cons, List.mem_cons]
      constructor
      · intro hc
        exact Or.inr (ih.mp hc)
      · rintro (he | hm)
        · exact absurd he.symm h
        · exact ih.mpr hm

theorem lookupA_eq_none_iff {α : Type} (m : List (String × α)) (k : String) :
    lookupA m k = none ↔ k ∉ keysOf m := by
  rw [← containsKey_iff_mem_keysOf]
  simp [containsKey, Option.isSome_iff_ne_none]

theorem lookupA_isSome_of_contains {α : Type} {m : List (String × α)} {k : String}
    (h : containsKey m k = true) : ∃ v, lookupA m k = some v := by
  simpa [containsKey, Option.isSome_iff_exists] using h

theorem contains_of_lookupA {α : Type} {m : List (String × α)} {k : String} {v : α}
    (h : lookupA m k = some v) : containsKey m k = true := by
  simp [containsKey, h]

theorem not_contains_lookupA_none {α : Type} {m : List (String × α)} {k : String}
    (h : ¬ containsKey m k = true) : lookupA m k = none := by
  rcases h' : lookupA m k with _ | w
  · rfl
  · exact absurd (contains_of_lookupA h') h

theorem mem_of_lookupA {α : Type} {m : List (String × α)} {k : String} {v : α}
    (h : lookupA m k = some v) : (k, v) ∈ m := by
  induction m with
  | nil => simp [lookupA] at h
  | cons p rest ih =>
    rw [lookupA_cons] at h
    by_cases hp : p.1 = k
    · rw [if_pos hp] at h
      injection h with h2
      refine List.mem_cons.mpr (Or.inl ?_)
      cases p
      simp_all
    · rw [if_neg hp] at h
      exact List.mem_cons.mpr (Or.inr (ih h))

theorem mem_keysOf_of_mem {α : Type} {m : List (String × α)} {p : String × α}
    (h : p ∈ m) : p.1 ∈ keysOf m := List.mem_map_of_mem Prod.fst h

theorem lookupA_mem_of_nodup {α : Type} {m : List (String × α)} {p : String × α}
    (hnd : (keysOf m).Nodup) (h : p ∈ m) : lookupA m p.1 = some p.2 := by
  induction m with
  | nil => simp at h
  | cons q rest ih =>
    simp only [keysOf, List.map_cons, List.nodup_cons] at hnd
    rcases List.mem_cons.mp h with h | h
    · subst h
      simp [lookupA_cons]
    · have hne : q.1 ≠ p.1 := by
        intro he
        exact hnd.1 (he ▸ mem_keysOf_of_mem h)
      rw [lookupA_cons, if_neg hne]
      exact ih hnd.2 h

theorem keysOf_append {α : Type} (m₁ m₂ : List (String × α)) :
    keysOf (m₁ ++ m₂) = keysOf m₁ ++ keysOf m₂ := by
  simp [keysOf]

/-! ### The in-place map update shared by `setVal`, `insertA`, `addDeg`,
`pushDependent` -/

theorem keysOf_map_update {α : Type} (f : α → α) (k : String) (m : List (String × α)) :
    keysOf (m.map (fun p => if p.1 = k then (p.1, f p.2) else p)) = keysOf m := by
  induction m with
  | nil => rfl
  | cons p rest ih =>
    by_cases hp : p.1 = k <;> simp [keysOf, hp] at ih ⊢ <;> exact ih

theorem lookupA_map_update {α : Type} (f : α → α) (k : String) (m : List (String × α))
    (x : String) :
    lookupA (m.map (fun p => if p.1 = k then (p.1, f p.2) else p)) x =
      if x = k then (lookupA m k).map f else lookupA m x := by
  induction m with
  | nil => by_cases hx : x = k <;> simp [lookupA, hx]
  | cons p rest ih =>
    simp only [List.map_cons]
    by_cases hp : p.1 = k
    · by_cases hx : x = k
      · subst hx
        simp [lookupA_cons, hp]
      · have hpx : ¬ p.1 = x := fun hcon => hx (by rw [← hcon, hp])
        have hkx : ¬ k = x := fun hcon => hx hcon.symm
        simp [lookupA_cons, hp, hpx, hx, hkx, ih]
    · by_cases hx : x = k
      · subst hx
        simp [lookupA_cons, hp, ih]
      · simp [lookupA_cons, hp, hx, ih]

theorem keysOf_setVal {α : Type} (m : List (String × α)) (k : String) (v : α) :
    keysOf (setVal m k v) = keysOf m :=
  keysOf_map_update (fun _ => v) k m

theorem lookupA_setVal {α : Type} (m : List (String × α)) (k : String) (v : α) (x : String) :
    lookupA (setVal m k v) x =
      if x = k then (lookupA m k).map (fun _ => v) else lookupA m x :=
  lookupA_map_update (fun _ => v) k m x

theorem keysOf_addDeg (m : List (String × Int)) (t : String) :
    keysOf (addDeg m t) = keysOf m :=
  keysOf_map_update (fun d => d + 1) t m

theorem lookupA_addDeg (m : List (String × Int)) (t x : String) :
    lookupA (addDeg m t) x =
      if x = t then (lookupA m t).map (fun d => d + 1) else lookupA m x :=
  lookupA_map_update (fun d => d + 1) t m x

theorem keysOf_entryOr {α : Type} (m : List (String × α)) (k : String) (v : α) :
    keysOf (entryOr m k v) = if containsKey m k then keysOf m else keysOf m ++ [k] := by
  by_cases h : containsKey m k <;> simp [entryOr, h, keysOf_append, keysOf]

theorem lookupA_entryOr {α : Type} (m : List (String × α)) (k : String) (v : α) (x : String) :
    lookupA (entryOr m k v) x =
      if x = k then some ((lookupA m k).getD v) else lookupA m x := by
  by_cases h : containsKey m k
  · obtain ⟨w, hw⟩ := lookupA_isSome_of_contains h
    rw [entryOr, if_pos h]
    by_cases hx : x = k
    · subst hx
      simp [hw]
    · simp [hx]
  · have hn := not_contains_lookupA_none h
    rw [entryOr, if_neg h, lookupA_append]
    by_cases hx : x = k
    · subst hx
      simp [hn, lookupA]
    · rcases h' : lookupA m x with _ | w <;> simp [h', lookupA, hx, Ne.symm hx]

theorem nodup_keysOf_entryOr {α : Type} {m : List (String × α)} (k : String) (v : α)
    (hnd : (keysOf m).Nodup) : (keysOf (entryOr m k v)).Nodup := by
  rw [keysOf_entryOr]
  by_cases h : containsKey m k
  · rw [if_pos h]
    exact hnd
  · rw [if_neg h]
    rw [List.nodup_append]
    refine ⟨hnd, List.nodup_singleton k, ?_⟩
    intro a ha hb
    simp at hb
    subst hb
    exact h ((containsKey_iff_mem_keysOf m a).mpr ha)

theorem keysOf_insertA {α : Type} (m : List (String × α)) (k : String) (v : α) :
    keysOf (insertA m k v) = if containsKey m k then keysOf m else keysOf m ++ [k] := by
  by_cases h : containsKey m k
  · rw [insertA, if_pos h, if_pos h]
    exact keysOf_map_update (fun _ => v) k m
  · rw [insertA, if_neg h, if_neg h, keysOf_append]
    rfl

theorem lookupA_insertA {α : Type} (m : List (String × α)) (k : String) (v : α) (x : String) :
    lookupA (insertA m k v) x = if x = k then some v else lookupA m x := by
  by_cases h : containsKey m k
  · obtain ⟨w, hw⟩ := lookupA_isSome_of_contains h
    rw [insertA, if_pos h]
    rw [lookupA_map_update (fun _ => v) k m x]
    by_cases hx : x = k <;> simp [hx, hw]
  · have hn := not_contains_lookupA_none h
    rw [insertA, if_neg h, lookupA_append]
    by_cases hx : x = k
    · subst hx
      simp [hn, lookupA]
    · rcases h' : lookupA m x with _ | w <;> simp [h', lookupA, hx, Ne.symm hx]

theorem nodup_keysOf_insertA {α : Type} {m : List (String × α)} (k : String) (v : α)
    (hnd : (keysOf m).Nodup) : (keysOf (insertA m k v)).Nodup := by
  rw [keysOf_insertA]
  by_cases h : containsKey m k
  · rw [if_pos h]
    exact hnd
  · rw [if_neg h]
    rw [List.nodup_append]
    refine ⟨hnd, List.nodup_singleton k, ?_⟩
    intro a ha hb
    simp at hb
    subst hb
    exact h ((containsKey_iff_mem_keysOf m a).mpr ha)

theorem keysOf_pushDependent (g : DepMap) (dep task : String) :
    keysOf (pushDependent g dep task) =
      if containsKey g dep then keysOf g else keysOf g ++ [dep] := by
  rw [pushDependent, keysOf_map_update (fun l => l ++ [task]) dep (entryOr g dep []),
    keysOf_entryOr]

theorem lookupA_pushDependent (g : DepMap) (dep task x : String) :
    lookupA (pushDependent g dep task) x =
      if x = dep then some ((lookupA g dep).getD [] ++ [task]) else lookupA g x := by
  rw [pushDependent, lookupA_map_update (fun l => l ++ [task]) dep (entryOr g dep []) x,
    lookupA_entryOr]
  by_cases hx : x = dep
  · subst hx
    simp
  · simp only [if_neg hx]
    rw [lookupA_entryOr, if_neg hx]

theorem nodup_keysOf_pushDependent {g : DepMap} (dep task : String)
    (hnd : (keysOf g).Nodup) : (keysOf (pushDependent g dep task)).Nodup := by
  rw [keysOf_pushDependent]
  by_cases h : containsKey g dep
  · rw [if_pos h]
    exact hnd
  · rw [if_neg h]
    rw [List.nodup_append]
    refine ⟨hnd, List.nodup_singleton dep, ?_⟩
    intro a ha hb
    simp at hb
    subst hb
    exact h ((containsKey_iff_mem_keysOf g a).mpr ha)

/-- A nodup list contained in another list is no longer than it. -/
theorem nodup_subset_length_le {l l' : List String} (hnd : l.Nodup)
    (hsub : ∀ x ∈ l, x ∈ l') : l.length ≤ l'.length :=
  (List.subperm_of_subset hnd hsub).length_le

/-! ## Vocabulary for the claims: substring search and reachability -/

/-- Does `needle` occur at the head of `hay`? -/
def startsWithChars : List Char → List Char → Bool
  | [], _ => true
  | _ :: _, [] => false
  | n :: ns, h :: hs => n == h && startsWithChars ns hs

/-- Substring occurrence over character lists. -/
def hasSubstr (needle : List Char) : List Char → Bool
  | [] => needle.isEmpty
  | c :: rest => startsWithChars needle (c :: rest) || hasSubstr needle rest

/-- "The error message contains the word circular, case-insensitively". -/
def containsCircular (msg : String) : Bool :=
  hasSubstr "circular".toList (msg.toList.map Char.toLower)

theorem startsWithChars_append {needle l : List Char} (l' : List Char)
    (h : startsWithChars needle l = true) : startsWithChars needle (l ++ l') = true := by
  induction needle generalizing l with
  | nil => rfl
  | cons n ns ih =>
    cases l with
    | nil => simp [startsWithChars] at h
    | cons c cs =>
      simp only [startsWithChars, Bool.and_eq_true] at h
      simp only [List.cons_append, startsWithChars, Bool.and_eq_true]
      exact ⟨h.1, ih h.2⟩

theorem hasSubstr_append_left {needle l : List Char} (l' : List Char)
    (h : hasSubstr needle l = true) : hasSubstr needle (l ++ l') = true := by
  induction l with
  | nil =>
    simp only [hasSubstr, List.isEmpty_iff] at h
    subst h
    cases l' with
    | nil => rfl
    | cons c cs => simp [hasSubstr, startsWithChars]
  | cons c cs ih =>
    simp only [hasSubstr, Bool.or_eq_true] at h
    rcases h with h | h
    · simp only [List.cons_append, hasSubstr, Bool.or_eq_true]
      exact Or.inl (by simpa using startsWithChars_append l' h)
    · simp only [List.cons_append, hasSubstr, Bool.or_eq_true]
      exact Or.inr (ih h)

/-- Both circular-dependency messages of `task_executor.rs` contain the word
"circular" case-insensitively, whatever task name is spliced in. -/
theorem containsCircular_collect_msg (s : String) :
    containsCircular ("Circular dependency detected involving task '" ++ s ++ "'") = true := by
  unfold containsCircular
  have hdata : ("Circular dependency detected involving task '" ++ s ++ "'").toList
      = "Circular dependency detected involving task '".toList ++ (s.toList ++ "'".toList) := by
    show ("Circular dependency detected involving task '" ++ s ++ "'").data = _
    rw [String.data_append, String.data_append, List.append_assoc]
    rfl
  rw [hdata, List.map_append]
  exact hasSubstr_append_left _ (by decide)

theorem containsCircular_graph_msg :
    containsCircular "Circular dependency detected in task graph" = true := by
  decide

/-- The dependency relation of a task map: `depEdge allTasks a b` holds when
`b` is listed among the dependencies of `a`'s configuration. -/
def depEdge (allTasks : TaskMap) (a b : String) : Prop :=
  ∃ cfg, lookupA allTasks a = some cfg ∧ b ∈ cfg.dependencies.getD []

/-- Transitive closure of the requested roots under the dependency relation
(reflexive at the roots themselves). -/
def ReachableFrom (allTasks : TaskMap) (roots : List String) (t : String) : Prop :=
  ∃ r ∈ roots, Relation.ReflTransGen (depEdge allTasks) r t

/-! ## The Cache Store and cache-integration glue (spec §4.2, §4.5)

The cache lives in `cuenv::cache::CacheManager`, which is not under `src/`
(only the repository's tests reference it), so it is modelled from the spec. -/

/-- Modelled from the spec: a `CacheEntry`'s metadata (§3): exit code, task
name and the digest of the input set at time of capture (timestamps and
output blobs are irrelevant to the claims). -/
structure CacheEntry where
  exit_code : Int
  task_name : String
  input_digest : String
deriving DecidableEq, Repr

/-- Modelled from the spec: the Cache Store's hit criterion (§4.2):
`get(key)` returns `Some` iff an entry is stored under `key` and its recorded
input-set digest matches the current input-set digest. `store` abstracts the
on-disk map and `currentDigest` the current input-set digest. -/
def cacheGet (store : String → Option CacheEntry) (currentDigest : String)
    (key : String) : Option CacheEntry :=
  match store key with
  | some e => if e.input_digest = currentDigest then some e else none
  | none => none

/-- Modelled from the spec: the cache key of a task (§4.1): the explicit
`cache_key` override when present, otherwise the derived fingerprint
(abstracted as an oracle `fingerprint`). -/
def cacheKeyOf (fingerprint : String → TaskConfig → String) (name : String)
    (cfg : TaskConfig) : String :=
  match cfg.cache_key with
  | some k => k
  | none => fingerprint name cfg

/-- Modelled from the spec: one dispatcher unit with cache integration
(§4.5 step 2): compute the cache key; if the task's `cache` is true, consult
the Cache Store and on a hit record exit code 0 and skip execution; otherwise
run `execute_single_task`. Returns the task's recorded result together with
the spawn calls performed. -/
def dispatchUnitWithCache (store : String → Option CacheEntry) (currentDigest : String)
    (fingerprint : String → TaskConfig → String) (spawn : Spawner) (name : String)
    (cfg : TaskConfig) (workingDir : RustPath) (args : List String) :
    Except ExecError Int × List SpawnCall :=
  let key := cacheKeyOf fingerprint name cfg
  if cfg.cache.getD false then
    match cacheGet store currentDigest key with
    | some _ => (.ok 0, [])
    | none => execute_single_task spawn cfg workingDir args
  else execute_single_task spawn cfg workingDir args

/-! ## Claim C8: command/script validation in `execute_single_task` -/

theorem runShell_spawns (spawn : Spawner) (sh p : String) (d : RustPath) :
    (runShell spawn sh p d).2 = [⟨sh, p, d⟩] := by
  unfold runShell
  cases h : spawn ⟨sh, p, d⟩ <;> simp [h]

theorem execute_single_task_spawn_dirs (spawn : Spawner) (cfg : TaskConfig)
    (base : RustPath) (args : List String) :
    ∀ call ∈ (execute_single_task spawn cfg base args).2, call.dir = execDir cfg base := by
  intro call hcall
  unfold execute_single_task at hcall
  rcases hc : cfg.command with _ | c <;> rcases hs : cfg.script with _ | s <;>
    simp only [hc, hs] at hcall
  · simp at hcall
  · rw [runShell_spawns] at hcall
    simp at hcall
    rw [hcall]
  · rw [runShell_spawns] at hcall
    simp at hcall
    rw [hcall]
  · simp at hcall

/-- C8: a task definition with both `command` and `script` set, and one with
neither, each yield the corresponding configuration error at run time with no
child process spawned; a task with exactly one of the two proceeds to a
single invocation. -/
theorem C8_command_script_validation (spawn : Spawner) (cfg : TaskConfig)
    (workingDir : RustPath) (args : List String) :
    (∀ c s, cfg.command = some c → cfg.script = some s →
      execute_single_task spawn cfg workingDir args =
        (.error (.configuration "Task cannot have both 'command' and 'script' defined"), []))
    ∧ (cfg.command = none → cfg.script = none →
      execute_single_task spawn cfg workingDir args =
        (.error (.configuration "Task must have either 'command' or 'script' defined"), []))
    ∧ (∀ c, cfg.command = some c → cfg.script = none →
      ∃ call, (execute_single_task spawn cfg workingDir args).2 = [call])
    ∧ (∀ s, cfg.script = some s → cfg.command = none →
      ∃ call, (execute_single_task spawn cfg workingDir args).2 = [call]) := by
  refine ⟨?_, ?_, ?_, ?_⟩
  · intro c s hc hs
    unfold execute_single_task
    rw [hc, hs]
  · intro hc hs
    unfold execute_single_task
    rw [hc, hs]
  · intro c hc hs
    unfold execute_single_task
    rw [hc, hs]
    exact ⟨_, runShell_spawns spawn _ _ _⟩
  · intro s hs hc
    unfold execute_single_task
    rw [hc, hs]
    exact ⟨_, runShell_spawns spawn _ _ _⟩

theorem C8_command_script_validation_witness :
    (execute_single_task (fun _ => .exited (some 0))
        { command := some "echo a", script := some "echo b" } ⟨true, []⟩ [] =
      (.error (.configuration "Task cannot have both 'command' and 'script' defined"), []))
    ∧ (execute_single_task (fun _ => .exited (some 0)) {} ⟨true, []⟩ [] =
      (.error (.configuration "Task must have either 'command' or 'script' defined"), []))
    ∧ (∃ call, (execute_single_task (fun _ => .exited (some 0))
        { command := some "echo a" } ⟨true, []⟩ []).2 = [call])
    ∧ (∃ call, (execute_single_task (fun _ => .exited (some 0))
        { script := some "echo b" } ⟨true, []⟩ []).2 = [call]) :=
  ⟨(C8_command_script_validation (fun _ => .exited (some 0))
      { command := some "echo a", script := some "echo b" } ⟨true, []⟩ []).1
      "echo a" "echo b" rfl rfl,
   (C8_command_script_validation (fun _ => .exited (some 0)) {} ⟨true, []⟩ []).2.1 rfl rfl,
   (C8_command_script_validation (fun _ => .exited (some 0))
      { command := some "echo a" } ⟨true, []⟩ []).2.2.1 "echo a" rfl rfl,
   (C8_command_script_validation (fun _ => .exited (some 0))
      { script := some "echo b" } ⟨true, []⟩ []).2.2.2 "echo b" rfl rfl⟩

/-! ## Claim C10: an absolute task `working_dir` replaces the base directory -/

/-- C10: when a task's `working_dir` is an absolute path, every child process
spawned for the task runs exactly in that path — `PathBuf::push` replaces the
dispatcher's base working directory entirely. -/
theorem C10_absolute_working_dir_replaces (spawn : Spawner) (cfg : TaskConfig)
    (base : RustPath) (args : List String) (p : RustPath)
    (hwd : cfg.working_dir = some p) (habs : p.absolute = true) :
    ∀ call ∈ (execute_single_task spawn cfg base args).2, call.dir = p := by
  intro call hcall
  rw [execute_single_task_spawn_dirs spawn cfg base args call hcall]
  simp [execDir, hwd, pushPath, habs]

theorem C10_absolute_working_dir_replaces_witness :
    (SpawnCall.mk "sh" "make x" ⟨true, ["opt", "proj"]⟩).dir = ⟨true, ["opt", "proj"]⟩ :=
  C10_absolute_working_dir_replaces (fun _ => .exited (some 0))
    { command := some "make", working_dir := some ⟨true, ["opt", "proj"]⟩ }
    ⟨true, ["home", "user"]⟩ ["x"] ⟨true, ["opt", "proj"]⟩ rfl rfl
    ⟨"sh", "make x", ⟨true, ["opt", "proj"]⟩⟩ (by decide)

/-! ## Claim C4: a matching cache hit records exit code 0 and skips execution -/

/-- C4: for a task whose `cache` flag is true and whose cache key hits a
stored entry with matching input digest, the dispatcher unit records exit
code 0 and performs no spawn call at all. -/
theorem C4_cache_hit_skips_execution (store : String → Option CacheEntry)
    (currentDigest : String) (fingerprint : String → TaskConfig → String)
    (spawn : Spawner) (name : String) (cfg : TaskConfig) (workingDir : RustPath)
    (args : List String) (entry : CacheEntry)
    (hcache : cfg.cache = some true)
    (hstore : store (cacheKeyOf fingerprint name cfg) = some entry)
    (hdigest : entry.input_digest = currentDigest) :
    dispatchUnitWithCache store currentDigest fingerprint spawn name cfg workingDir args =
      (.ok 0, []) := by
  unfold dispatchUnitWithCache
  rw [hcache]
  simp only [Option.getD_some, if_true]
  unfold cacheGet
  rw [hstore]
  simp [hdigest]

theorem C4_cache_hit_skips_execution_witness :
    dispatchUnitWithCache
      (fun k => if k = "key1" then some ⟨0, "t", "digest1"⟩ else none) "digest1"
      (fun _ _ => "derived") (fun _ => .exited (some 7)) "t"
      { command := some "touch out", cache := some true, cache_key := some "key1" }
      ⟨true, []⟩ [] = (.ok 0, []) :=
  C4_cache_hit_skips_execution
    (fun k => if k = "key1" then some ⟨0, "t", "digest1"⟩ else none) "digest1"
    (fun _ _ => "derived") (fun _ => .exited (some 7)) "t"
    { command := some "touch out", cache := some true, cache_key := some "key1" }
    ⟨true, []⟩ [] ⟨0, "t", "digest1"⟩ rfl rfl rfl

/-! ## Dispatcher lemmas (for claims C2, C5, C7) -/

/-- The exit code one task unit records (lines 62-79): the task's status, or
the synthetic `-1` when `execute_single_task` returned an error. The `none`
fallback models the unreachable `unwrap` panic and is never used under the
hypotheses of the theorems below. -/
def unitCode (spawn : Spawner) (tasks : TaskMap) (workingDir : RustPath)
    (args : List String) (name : String) : Int :=
  match lookupA tasks name with
  | some cfg =>
    match (execute_single_task spawn cfg workingDir args).1 with
    | .ok status => status
    | .error _ => -1
  | none => 0

/-- The spawn calls one task unit performs. -/
def unitSpawns (spawn : Spawner) (tasks : TaskMap) (workingDir : RustPath)
    (args : List String) (name : String) : List SpawnCall :=
  match lookupA tasks name with
  | some cfg => (execute_single_task spawn cfg workingDir args).2
  | none => []

/-- The `(name, status)` outcomes a level appends to `failed_tasks`. -/
def failedOutcomes (spawn : Spawner) (tasks : TaskMap) (workingDir : RustPath)
    (args : List String) (level : List String) : List (String × Int) :=
  level.filterMap (fun n =>
    if unitCode spawn tasks workingDir args n ≠ 0 then
      some (n, unitCode spawn tasks workingDir args n)
    else none)

/-- The name-tagged spawn calls of one level, in level order. -/
def levelSpawns (spawn : Spawner) (tasks : TaskMap) (workingDir : RustPath)
    (args : List String) (level : List String) : List (String × SpawnCall) :=
  (level.map (fun n =>
    (unitSpawns spawn tasks workingDir args n).map (fun c => (n, c)))).join

/-- The name-tagged spawn calls of a list of levels. -/
def levelsSpawns (spawn : Spawner) (tasks : TaskMap) (workingDir : RustPath)
    (args : List String) (levels : List (List String)) : List (String × SpawnCall) :=
  (levels.map (levelSpawns spawn tasks workingDir args)).join

theorem runLevel_spec (spawn : Spawner) (tasks : TaskMap) (workingDir : RustPath)
    (args : List String) :
    ∀ (level : List String) (tr : DispatchTrace) (failed0 : List (String × Int)),
    (∀ n ∈ level, containsKey tasks n = true) →
    runLevel spawn tasks workingDir args level tr failed0 =
      (⟨tr.launched ++ level, tr.spawns ++ levelSpawns spawn tasks workingDir args level⟩,
       .ok (failed0 ++ failedOutcomes spawn tasks workingDir args level)) := by
  intro level
  induction level with
  | nil =>
    intro tr failed0 _
    simp [runLevel, levelSpawns, failedOutcomes]
  | cons n rest ih =>
    intro tr failed0 hkeys
    obtain ⟨cfg, hcfg⟩ := lookupA_isSome_of_contains (hkeys n (List.mem_cons_self n rest))
    have hrest : ∀ x ∈ rest, containsKey tasks x = true := fun x hx =>
      hkeys x (List.mem_cons_of_mem n hx)
    simp only [runLevel, hcfg]
    rw [ih _ _ hrest]
    have hunit : unitCode spawn tasks workingDir args n =
        match (execute_single_task spawn cfg workingDir args).1 with
        | .ok status => status
        | .error _ => -1 := by
      unfold unitCode
      rw [hcfg]
    have hspawn : unitSpawns spawn tasks workingDir args n =
        (execute_single_task spawn cfg workingDir args).2 := by
      unfold unitSpawns
      rw [hcfg]
    have htr : levelSpawns spawn tasks workingDir args (n :: rest) =
        (execute_single_task spawn cfg workingDir args).2.map (fun c => (n, c)) ++
          levelSpawns spawn tasks workingDir args rest := by
      simp [levelSpawns, hspawn]
    have hfo : failedOutcomes spawn tasks workingDir args (n :: rest) =
        (if unitCode spawn tasks workingDir args n ≠ 0 then
          [(n, unitCode spawn tasks workingDir args n)] else []) ++
          failedOutcomes spawn tasks workingDir args rest := by
      unfold failedOutcomes
      by_cases h : unitCode spawn tasks workingDir args n ≠ 0 <;> simp [h]
    rcases hres : (execute_single_task spawn cfg workingDir args).1 with e | status
    · have hu : unitCode spawn tasks workingDir args n = -1 := by rw [hunit, hres]
      simp only [htr, hfo, hu]
      norm_num
    · have hu : unitCode spawn tasks workingDir args n = status := by rw [hunit, hres]
      by_cases hz : status = 0
      · subst hz
        have : ¬ unitCode spawn tasks workingDir args n ≠ 0 := by rw [hu]; simp
        simp only [htr, hfo, hu, this]
        simp
      · have : unitCode spawn tasks workingDir args n ≠ 0 := by rw [hu]; exact hz
        simp only [htr, hfo, hu, this]
        simp [hz]

theorem failedOutcomes_eq_nil (spawn : Spawner) (tasks : TaskMap) (workingDir : RustPath)
    (args : List String) (level : List String)
    (hzero : ∀ n ∈ level, unitCode spawn tasks workingDir args n = 0) :
    failedOutcomes spawn tasks workingDir args level = [] := by
  unfold failedOutcomes
  rw [List.filterMap_eq_nil]
  intro n hn
  simp [hzero n hn]

theorem failedOutcomes_ne_nil (spawn : Spawner) (tasks : TaskMap) (workingDir : RustPath)
    (args : List String) (level : List String) (n : String) (hn : n ∈ level)
    (hfail : unitCode spawn tasks workingDir args n ≠ 0) :
    failedOutcomes spawn tasks workingDir args level ≠ [] := by
  unfold failedOutcomes
  intro hcon
  rw [List.filterMap_eq_nil] at hcon
  have := hcon n hn
  simp [hfail] at this

theorem mem_failedOutcomes (spawn : Spawner) (tasks : TaskMap) (workingDir : RustPath)
    (args : List String) (level : List String) (p : String × Int)
    (hp : p ∈ failedOutcomes spawn tasks workingDir args level) :
    p.1 ∈ level ∧ unitCode spawn tasks workingDir args p.1 ≠ 0 := by
  unfold failedOutcomes at hp
  rw [List.mem_filterMap] at hp
  obtain ⟨n, hn, hpn⟩ := hp
  by_cases h : unitCode spawn tasks workingDir args n ≠ 0
  · rw [if_pos h] at hpn
    injection hpn with hpn
    subst hpn
    exact ⟨hn, h⟩
  · rw [if_neg h] at hpn
    exact absurd hpn (by simp)

theorem runLevels_ok (spawn : Spawner) (tasks : TaskMap) (workingDir : RustPath)
    (args : List String) :
    ∀ (levels : List (List String)) (tr : DispatchTrace),
    (∀ n ∈ levels.join, containsKey tasks n = true) →
    (∀ n ∈ levels.join, unitCode spawn tasks workingDir args n = 0) →
    runLevels spawn tasks workingDir args levels tr =
      (⟨tr.launched ++ levels.join,
        tr.spawns ++ levelsSpawns spawn tasks workingDir args levels⟩, .ok 0) := by
  intro levels
  induction levels with
  | nil =>
    intro tr _ _
    simp [runLevels, levelsSpawns]
  | cons level rest ih =>
    intro tr hkeys hzero
    have hklevel : ∀ n ∈ level, containsKey tasks n = true := fun n hn =>
      hkeys n (by simp [hn])
    have hzlevel : ∀ n ∈ level, unitCode spawn tasks workingDir args n = 0 := fun n hn =>
      hzero n (by simp [hn])
    have hrl := runLevel_spec spawn tasks workingDir args level tr [] hklevel
    simp only [runLevels, hrl]
    rw [failedOutcomes_eq_nil spawn tasks workingDir args level hzlevel]
    simp only [List.nil_append, List.isEmpty_nil, if_true]
    rw [ih _ (fun n hn => hkeys n (by simp [hn])) (fun n hn => hzero n (by simp [hn]))]
    simp [levelsSpawns, levelSpawns]

theorem runLevels_failed (spawn : Spawner) (tasks : TaskMap) (workingDir : RustPath)
    (args : List String) :
    ∀ (levels : List (List String)) (tr : DispatchTrace) (k : Nat) (hk : k < levels.length),
    (∀ n ∈ (levels.take (k + 1)).join, containsKey tasks n = true) →
    (∀ j (hj : j < k), ∀ n ∈ levels.get ⟨j, Nat.lt_trans hj hk⟩,
      unitCode spawn tasks workingDir args n = 0) →
    failedOutcomes spawn tasks workingDir args (levels.get ⟨k, hk⟩) ≠ [] →
    runLevels spawn tasks workingDir args levels tr =
      (⟨tr.launched ++ (levels.take (k + 1)).join,
        tr.spawns ++ levelsSpawns spawn tasks workingDir args (levels.take (k + 1))⟩,
       .error (.configuration ("Tasks failed: " ++ String.intercalate ", "
         ((failedOutcomes spawn tasks workingDir args (levels.get ⟨k, hk⟩)).map Prod.fst)))) := by
  intro levels
  induction levels with
  | nil =>
    intro tr k hk
    exact absurd hk (by simp)
  | cons level rest ih =>
    intro tr k hk hkeys hzero hfail
    cases k with
    | zero =>
      have hklevel : ∀ n ∈ level, containsKey tasks n = true := fun n hn =>
        hkeys n (by simp [hn])
      have hrl := runLevel_spec spawn tasks workingDir args level tr [] hklevel
      simp only [runLevels, hrl, List.nil_append]
      have : (failedOutcomes spawn tasks workingDir args level).isEmpty = false := by
        rcases hf : failedOutcomes spawn tasks workingDir args level with _ | ⟨p, ps⟩
        · exact absurd hf (by simpa using hfail)
        · rfl
      simp only [this, Bool.false_eq_true, if_false, List.get]
      simp [levelsSpawns]
    | succ k' =>
      have hklevel : ∀ n ∈ level, containsKey tasks n = true := fun n hn =>
        hkeys n (by simp [hn])
      have hzlevel : ∀ n ∈ level, unitCode spawn tasks workingDir args n = 0 := by
        intro n hn
        exact hzero 0 (Nat.succ_pos k') n hn
      have hrl := runLevel_spec spawn tasks workingDir args level tr [] hklevel
      simp only [runLevels, hrl, List.nil_append]
      rw [failedOutcomes_eq_nil spawn tasks workingDir args level hzlevel]
      simp only [List.isEmpty_nil, if_true]
      have hk' : k' < rest.length := Nat.lt_of_succ_lt_succ hk
      have hkeys' : ∀ n ∈ (rest.take (k' + 1)).join, containsKey tasks n = true := by
        intro n hn
        refine hkeys n ?_
        simp only [List.take, List.join]
        exact List.mem_append_right level hn
      have hzero' : ∀ j (hj : j < k'), ∀ n ∈ rest.get ⟨j, Nat.lt_trans hj hk'⟩,
          unitCode spawn tasks workingDir args n = 0 := by
        intro j hj n hn
        exact hzero (j + 1) (Nat.succ_lt_succ hj) n hn
      rw [ih _ k' hk' hkeys' hzero' hfail]
      simp [levelsSpawns]

/-! ## Claim C2: level-failure aborts the run; full success returns 0 -/

/-- C2: in the dispatcher's level loop, if every task of every level exits
with code 0 the call returns `Ok(0)`; and whenever the levels before `k` all
succeed while some task of level `k` records a non-zero code (including the
synthetic `-1`), the call returns the `Tasks failed` configuration error
naming exactly the failed tasks of level `k`, and the launched-task trace
stops at level `k` — no task of a later level is executed. -/
theorem C2_level_failure_aborts (spawn : Spawner) (tasks : TaskMap)
    (workingDir : RustPath) (args : List String) (levels : List (List String))
    (hkeys : ∀ n ∈ levels.join, containsKey tasks n = true) :
    ((∀ n ∈ levels.join, unitCode spawn tasks workingDir args n = 0) →
      runLevels spawn tasks workingDir args levels ⟨[], []⟩ =
        (⟨levels.join, levelsSpawns spawn tasks workingDir args levels⟩, .ok 0))
    ∧ (∀ k (hk : k < levels.length),
        (∀ j (hj : j < k), ∀ n ∈ levels.get ⟨j, Nat.lt_trans hj hk⟩,
          unitCode spawn tasks workingDir args n = 0) →
        (∃ n ∈ levels.get ⟨k, hk⟩, unitCode spawn tasks workingDir args n ≠ 0) →
        ∃ failedNames, failedNames ≠ [] ∧
          (∀ n ∈ failedNames, n ∈ levels.get ⟨k, hk⟩ ∧
            unitCode spawn tasks workingDir args n ≠ 0) ∧
          runLevels spawn tasks workingDir args levels ⟨[], []⟩ =
            (⟨(levels.take (k + 1)).join,
              levelsSpawns spawn tasks workingDir args (levels.take (k + 1))⟩,
             .error (.configuration
               ("Tasks failed: " ++ String.intercalate ", " failedNames)))) := by
  constructor
  · intro hzero
    rw [runLevels_ok spawn tasks workingDir args levels ⟨[], []⟩ hkeys hzero]
    simp
  · intro k hk hzero hfail
    obtain ⟨n, hn, hnz⟩ := hfail
    refine ⟨(failedOutcomes spawn tasks workingDir args (levels.get ⟨k, hk⟩)).map Prod.fst,
      ?_, ?_, ?_⟩
    · simp only [ne_eq, List.map_eq_nil]
      exact failedOutcomes_ne_nil spawn tasks workingDir args _ n hn hnz
    · intro x hx
      rw [List.mem_map] at hx
      obtain ⟨p, hp, hpx⟩ := hx
      have := mem_failedOutcomes spawn tasks workingDir args _ p hp
      rw [← hpx]
      exact this
    · have hkeys' : ∀ x ∈ (levels.take (k + 1)).join, containsKey tasks x = true := by
        intro x hx
        refine hkeys x ?_
        rcases List.mem_join.mp hx with ⟨l, hl, hxl⟩
        exact List.mem_join.mpr ⟨l, List.mem_of_mem_take hl, hxl⟩
      rw [runLevels_failed spawn tasks workingDir args levels ⟨[], []⟩ k hk hkeys'
        hzero (failedOutcomes_ne_nil spawn tasks workingDir args _ n hn hnz)]
      simp

theorem C2_level_failure_aborts_witness :
    ∃ failedNames, failedNames ≠ [] ∧
      (∀ n ∈ failedNames, n ∈ ["b"] ∧
        unitCode (fun c => if c.payload = "boom" then .exited (some 3) else .exited (some 0))
          [("a", { command := some "ok" }), ("b", { command := some "boom" })]
          ⟨true, []⟩ [] n ≠ 0) ∧
      runLevels (fun c => if c.payload = "boom" then .exited (some 3) else .exited (some 0))
          [("a", { command := some "ok" }), ("b", { command := some "boom" })]
          ⟨true, []⟩ [] [["a"], ["b"]] ⟨[], []⟩ =
        (⟨["a", "b"],
          levelsSpawns (fun c => if c.payload = "boom" then .exited (some 3) else .exited (some 0))
            [("a", { command := some "ok" }), ("b", { command := some "boom" })]
            ⟨true, []⟩ [] [["a"], ["b"]]⟩,
         .error (.configuration ("Tasks failed: " ++ String.intercalate ", " failedNames))) :=
  (C2_level_failure_aborts
      (fun c => if c.payload = "boom" then .exited (some 3) else .exited (some 0))
      [("a", { command := some "ok" }), ("b", { command := some "boom" })]
      ⟨true, []⟩ [] [["a"], ["b"]] (by decide)).2 1 (by decide)
    (by
      intro j hj
      interval_cases j
      intro n hn
      have hn' : n ∈ ["a"] := hn
      simp only [List.mem_singleton] at hn'
      subst hn'
      decide)
    ⟨"b", by decide, by decide⟩

/-! ## Claim C7: what failure results carry to the user -/

theorem runLevel_error_panic (spawn : Spawner) (tasks : TaskMap) (workingDir : RustPath)
    (args : List String) :
    ∀ (level : List String) (tr : DispatchTrace) (failed0 : List (String × Int))
      (tr' : DispatchTrace) (e : ExecError),
    runLevel spawn tasks workingDir args level tr failed0 = (tr', .error e) →
    e = .panicUnwrap := by
  intro level
  induction level with
  | nil =>
    intro tr failed0 tr' e h
    simp [runLevel] at h
  | cons n rest ih =>
    intro tr failed0 tr' e h
    rcases hl : lookupA tasks n with _ | cfg
    · simp only [runLevel, hl, Prod.mk.injEq, Except.error.injEq] at h
      exact h.2.symm
    · simp only [runLevel, hl] at h
      exact ih _ _ _ _ h

theorem C7_cex_single_failure_code_dropped :
    (execute_tasks_with_dependencies (fun _ => .exited (some 7))
        [("t", { command := some "boom" })] ⟨true, []⟩ ["t"] []).2 =
      .error (.configuration "Tasks failed: t")
    ∧ (execute_tasks_with_dependencies (fun _ => .exited (some 7))
        [("t", { command := some "boom" })] ⟨true, []⟩ ["t"] []).2 ≠ .ok 7 := by
  have h1 : (execute_tasks_with_dependencies (fun _ => .exited (some 7))
      [("t", { command := some "boom" })] ⟨true, []⟩ ["t"] []).2 =
      .error (.configuration "Tasks failed: t") := rfl
  exact ⟨h1, by rw [h1]; simp⟩

/-- C7 (amended): the dispatcher never propagates an individual task's exit
code. The only success value `execute_tasks_with_dependencies`' level loop
can return is 0, and every failure — whether one task failed or many — is the
`Tasks failed` configuration error listing the failed task names (the modelled
`unwrap` panic aside). -/
theorem C7_failure_result_shape (spawn : Spawner) (tasks : TaskMap)
    (workingDir : RustPath) (args : List String) :
    ∀ (levels : List (List String)) (tr : DispatchTrace),
    (∀ c, (runLevels spawn tasks workingDir args levels tr).2 = .ok c → c = 0)
    ∧ (∀ e, (runLevels spawn tasks workingDir args levels tr).2 = .error e →
        e = .panicUnwrap ∨
        ∃ failedNames, failedNames ≠ [] ∧
          e = .configuration ("Tasks failed: " ++ String.intercalate ", " failedNames)) := by
  intro levels
  induction levels with
  | nil =>
    intro tr
    constructor
    · intro c hc
      simp only [runLevels] at hc
      exact (Except.ok.injEq _ _ ▸ hc).symm
    · intro e he
      simp [runLevels] at he
  | cons level rest ih =>
    intro tr
    rcases hrl : runLevel spawn tasks workingDir args level tr [] with ⟨tr', res⟩
    cases res with
    | error e0 =>
      have hpanic := runLevel_error_panic spawn tasks workingDir args level tr [] tr' e0 hrl
      constructor
      · intro c hc
        simp only [runLevels, hrl] at hc
        exact absurd hc (by simp)
      · intro e he
        have hstep : runLevels spawn tasks workingDir args (level :: rest) tr =
            (tr', .error e0) := by
          simp [runLevels, hrl]
        rw [hstep] at he
        left
        injection he with h2
        rw [← h2]
        exact hpanic
    | ok failed =>
      rcases hf : failed with _ | ⟨p, ps⟩
      · constructor
        · intro c hc
          simp only [runLevels, hrl, hf, List.isEmpty_nil, if_true] at hc
          exact (ih tr').1 c hc
        · intro e he
          simp only [runLevels, hrl, hf, List.isEmpty_nil, if_true] at he
          exact (ih tr').2 e he
      · have hstep : runLevels spawn tasks workingDir args (level :: rest) tr =
            (tr', .error (.configuration
              ("Tasks failed: " ++ String.intercalate ", " ((p :: ps).map Prod.fst)))) := by
          simp [runLevels, hrl, hf]
        constructor
        · intro c hc
          rw [hstep] at hc
          exact absurd hc (by simp)
        · intro e he
          rw [hstep] at he
          right
          refine ⟨((p :: ps).map Prod.fst), by simp, ?_⟩
          injection he with h2
          rw [← h2]

theorem C7_failure_result_shape_witness :
    ExecError.configuration "Tasks failed: t" = .panicUnwrap ∨
    ∃ failedNames, failedNames ≠ [] ∧
      ExecError.configuration "Tasks failed: t" =
        .configuration ("Tasks failed: " ++ String.intercalate ", " failedNames) :=
  (C7_failure_result_shape (fun _ => .exited (some 7)) [("t", { command := some "boom" })]
      ⟨true, []⟩ [] [["t"]] ⟨[], []⟩).2 (.configuration "Tasks failed: t") rfl

/-! ## Claim C5: user args and dependency invocations -/

theorem runLevel_spawns_mem (spawn : Spawner) (tasks : TaskMap) (workingDir : RustPath)
    (args : List String) :
    ∀ (level : List String) (tr : DispatchTrace) (failed0 : List (String × Int))
      (p : String × SpawnCall),
    p ∈ (runLevel spawn tasks workingDir args level tr failed0).1.spawns →
    p ∈ tr.spawns ∨ ∃ cfg, lookupA tasks p.1 = some cfg ∧
      p.2 ∈ (execute_single_task spawn cfg workingDir args).2 := by
  intro level
  induction level with
  | nil =>
    intro tr failed0 p hp
    simp only [runLevel] at hp
    exact Or.inl hp
  | cons n rest ih =>
    intro tr failed0 p hp
    rcases hl : lookupA tasks n with _ | cfg
    · simp only [runLevel, hl] at hp
      exact Or.inl hp
    · simp only [runLevel, hl] at hp
      rcases ih _ _ _ hp with hmem | hnew
      · rw [List.mem_append] at hmem
        rcases hmem with hmem | hmem
        · exact Or.inl hmem
        · rw [List.mem_map] at hmem
          obtain ⟨c, hc, hcp⟩ := hmem
          right
          refine ⟨cfg, ?_, ?_⟩
          · rw [← hcp]
            exact hl
          · rw [← hcp]
            exact hc
      · exact Or.inr hnew

theorem runLevels_spawns_mem (spawn : Spawner) (tasks : TaskMap) (workingDir : RustPath)
    (args : List String) :
    ∀ (levels : List (List String)) (tr : DispatchTrace) (p : String × SpawnCall),
    p ∈ (runLevels spawn tasks workingDir args levels tr).1.spawns →
    p ∈ tr.spawns ∨ ∃ cfg, lookupA tasks p.1 = some cfg ∧
      p.2 ∈ (execute_single_task spawn cfg workingDir args).2 := by
  intro levels
  induction levels with
  | nil =>
    intro tr p hp
    simp only [runLevels] at hp
    exact Or.inl hp
  | cons level rest ih =>
    intro tr p hp
    rcases hrl : runLevel spawn tasks workingDir args level tr [] with ⟨tr', res⟩
    have htr' : ∀ q, q ∈ tr'.spawns → q ∈ tr.spawns ∨ ∃ cfg, lookupA tasks q.1 = some cfg ∧
        q.2 ∈ (execute_single_task spawn cfg workingDir args).2 := by
      intro q hq
      exact runLevel_spawns_mem spawn tasks workingDir args level tr [] q (by rw [hrl]; exact hq)
    cases res with
    | error e0 =>
      have hstep : runLevels spawn tasks workingDir args (level :: rest) tr = (tr', .error e0) := by
        simp [runLevels, hrl]
      rw [hstep] at hp
      exact htr' p hp
    | ok failed =>
      rcases hf : failed with _ | ⟨q, qs⟩
      · have hstep : runLevels spawn tasks workingDir args (level :: rest) tr =
            runLevels spawn tasks workingDir args rest tr' := by
          simp [runLevels, hrl, hf]
        rw [hstep] at hp
        rcases ih tr' p hp with hmem | hnew
        · exact htr' p hmem
        · exact Or.inr hnew
      · have hstep : runLevels spawn tasks workingDir args (level :: rest) tr =
            (tr', .error (.configuration
              ("Tasks failed: " ++ String.intercalate ", " ((q :: qs).map Prod.fst)))) := by
          simp [runLevels, hrl, hf]
        rw [hstep] at hp
        exact htr' p hp

theorem execute_single_task_payload (spawn : Spawner) (cfg : TaskConfig)
    (workingDir : RustPath) (args : List String) :
    ∀ call ∈ (execute_single_task spawn cfg workingDir args).2,
      (∀ c, cfg.command = some c → cfg.script = none →
        call.payload = if args.isEmpty then c else c ++ " " ++ String.intercalate " " args)
      ∧ (∀ s, cfg.script = some s → cfg.command = none → call.payload = s) := by
  intro call hcall
  rcases hc : cfg.command with _ | c0 <;> rcases hs : cfg.script with _ | s0 <;>
    (unfold execute_single_task at hcall; rw [hc, hs] at hcall)
  · simp at hcall
  · rw [runShell_spawns] at hcall
    simp at hcall
    subst hcall
    constructor
    · intro c hcc
      exact absurd hcc (by simp)
    · intro s hss _
      injection hss
  · rw [runShell_spawns] at hcall
    simp at hcall
    subst hcall
    constructor
    · intro c hcc _
      injection hcc with hcc
      subst hcc
      by_cases ha : args = [] <;> simp [ha, List.isEmpty_iff]
    · intro s hss
      exact absurd hss (by simp)
  · simp at hcall

/-- C5 (amended): user args are appended, space-joined, to the command of
every task unit the dispatcher runs — requested roots and transitively
executed dependencies alike — and ignored for `script` tasks: every spawn in
the level loop's trace carries the looked-up task's `command` with the args
appended (or its `script` verbatim). -/
theorem C5_args_appended_to_all_tasks (spawn : Spawner) (tasks : TaskMap)
    (workingDir : RustPath) (args : List String) (levels : List (List String)) :
    ∀ p ∈ (runLevels spawn tasks workingDir args levels ⟨[], []⟩).1.spawns,
      ∀ cfg, lookupA tasks p.1 = some cfg →
        (∀ c, cfg.command = some c → cfg.script = none →
          p.2.payload = if args.isEmpty then c else c ++ " " ++ String.intercalate " " args)
        ∧ (∀ s, cfg.script = some s → cfg.command = none → p.2.payload = s) := by
  intro p hp cfg hcfg
  rcases runLevels_spawns_mem spawn tasks workingDir args levels ⟨[], []⟩ p hp with hmem | hnew
  · simp at hmem
  · obtain ⟨cfg', hcfg', hcall⟩ := hnew
    rw [hcfg] at hcfg'
    injection hcfg' with hcfg'
    rw [← hcfg'] at hcall
    exact execute_single_task_payload spawn cfg workingDir args p.2 hcall

theorem C5_args_appended_to_all_tasks_witness :
    (∀ c, (some "echo d" : Option String) = some c → (none : Option String) = none →
      (SpawnCall.mk "sh" "echo d x" ⟨true, []⟩).payload =
        if (["x"] : List String).isEmpty then c
        else c ++ " " ++ String.intercalate " " ["x"])
    ∧ (∀ s, (none : Option String) = some s → (some "echo d" : Option String) = none →
      (SpawnCall.mk "sh" "echo d x" ⟨true, []⟩).payload = s) :=
  C5_args_appended_to_all_tasks (fun _ => .exited (some 0))
    [("dep", { command := some "echo d" }),
     ("root", { command := some "echo r", dependencies := some ["dep"] })]
    ⟨true, []⟩ ["x"] [["dep"], ["root"]]
    ("dep", ⟨"sh", "echo d x", ⟨true, []⟩⟩) (by decide)
    { command := some "echo d" } (by decide)

/-- C5 as stated is false on the code: running `root` (which depends on
`dep`) with user args `["x"]` spawns the *dependency* `dep` with the args
appended to its command as well — the child is not invoked with the task's
command unchanged. -/
theorem C5_cex_dependency_gets_args :
    ("dep", (⟨"sh", "echo d x", ⟨true, []⟩⟩ : SpawnCall)) ∈
      (execute_tasks_with_dependencies (fun _ => .exited (some 0))
        [("dep", { command := some "echo d" }),
         ("root", { command := some "echo r", dependencies := some ["dep"] })]
        ⟨true, []⟩ ["root"] ["x"]).1.spawns
    ∧ ("dep" : String) ∉ (["root"] : List String)
    ∧ lookupA
        [("dep", ({ command := some "echo d" } : TaskConfig)),
         ("root", { command := some "echo r", dependencies := some ["dep"] })] "dep" =
        some { command := some "echo d" }
    ∧ ("echo d x" : String) ≠ "echo d" := by
  refine ⟨?_, by decide, by decide, by decide⟩
  decide

/-! ## Specification machinery for `collect_dependencies` -/

/-- The dependency loop of `collect_dependencies` (lines 182-191), named so
it can be reasoned about: it is definitionally the `foldlM` inside
`collectDependencies`. -/
def depsLoopF (allTasks : TaskMap) (fuel : Nat) (taskName : String)
    (deps : List String) (st : CollectState) : Except ExecError CollectState :=
  deps.foldlM
    (fun st2 dep =>
      if containsKey allTasks dep then
        collectDependencies allTasks fuel dep st2
      else
        .error (.configuration
          ("Dependency '" ++ dep ++ "' of task '" ++ taskName ++ "' not found")))
    st

theorem collectDependencies_succ (allTasks : TaskMap) (f : Nat) (taskName : String)
    (st : CollectState) :
    collectDependencies allTasks (f + 1) taskName st =
      if taskName ∈ st.stack then
        .error (.configuration
          ("Circular dependency detected involving task '" ++ taskName ++ "'"))
      else if taskName ∈ st.visited then .ok st
      else
        match lookupA allTasks taskName with
        | none => .error (.configuration ("Task '" ++ taskName ++ "' not found"))
        | some cfg =>
          match depsLoopF allTasks f taskName (cfg.dependencies.getD [])
              ⟨st.taskDependencies, st.visited, taskName :: st.stack⟩ with
          | .error e => .error e
          | .ok st2 =>
            .ok ⟨insertA st2.taskDependencies taskName (cfg.dependencies.getD []),
                 taskName :: st2.visited, st2.stack.erase taskName⟩ := rfl

theorem depsLoopF_nil (allTasks : TaskMap) (fuel : Nat) (taskName : String)
    (st : CollectState) : depsLoopF allTasks fuel taskName [] st = .ok st := rfl

theorem depsLoopF_cons (allTasks : TaskMap) (fuel : Nat) (taskName d : String)
    (rest : List String) (st : CollectState) :
    depsLoopF allTasks fuel taskName (d :: rest) st =
      if containsKey allTasks d then
        match collectDependencies allTasks fuel d st with
        | .error e => .error e
        | .ok st' => depsLoopF allTasks fuel taskName rest st'
      else
        .error (.configuration
          ("Dependency '" ++ d ++ "' of task '" ++ taskName ++ "' not found")) := by
  unfold depsLoopF
  rw [List.foldlM_cons]
  by_cases h : containsKey allTasks d
  · rw [if_pos h, if_pos h]
    rcases hc : collectDependencies allTasks fuel d st with e | st' <;> rfl
  · rw [if_neg h, if_neg h]
    rfl

/-- The invariant `collect_dependencies` maintains over its state: the
adjacency map's keys are exactly the visited set, each entry records the
task's verbatim dependency list, the visited set is closed under dependency
edges, and visited nodes are never on the DFS stack. -/
structure CollectInv (allTasks : TaskMap) (st : CollectState) : Prop where
  visitedNodup : st.visited.Nodup
  keysNodup : (keysOf st.taskDependencies).Nodup
  keysVisited : ∀ x, x ∈ keysOf st.taskDependencies ↔ x ∈ st.visited
  entriesWF : ∀ p ∈ st.taskDependencies,
    ∃ cfg, lookupA allTasks p.1 = some cfg ∧ p.2 = cfg.dependencies.getD []
  closed : ∀ v ∈ st.visited, ∀ d, depEdge allTasks v d → d ∈ st.visited
  visitedStack : ∀ v ∈ st.visited, v ∉ st.stack

/-- Precondition shared by all `collect_dependencies` lemmas. -/
def CollectPre (allTasks : TaskMap) (st : CollectState) : Prop :=
  CollectInv allTasks st ∧ st.stack.Nodup ∧ (∀ s ∈ st.stack, containsKey allTasks s = true)

/-- What a successful `collect_dependencies` call guarantees. -/
def CollectPost (allTasks : TaskMap) (t : String) (st st' : CollectState) : Prop :=
  CollectInv allTasks st' ∧ st'.stack = st.stack ∧
  (∀ v ∈ st.visited, v ∈ st'.visited) ∧ t ∈ st'.visited ∧
  (∀ v ∈ st'.visited, v ∈ st.visited ∨ Relation.ReflTransGen (depEdge allTasks) t v)

/-- The full specification of `collect_dependencies` at a given fuel:
success establishes `CollectPost`; fuel exhaustion cannot surface; and for a
task all of whose reachable tasks exist, the only possible errors are
circular-dependency errors. -/
def CollectSpec (allTasks : TaskMap) (fuel : Nat) : Prop :=
  ∀ (t : String) (st : CollectState), CollectPre allTasks st →
    (keysOf allTasks).length < fuel + st.stack.length →
    ((∀ st', collectDependencies allTasks fuel t st = .ok st' → CollectPost allTasks t st st')
     ∧ (∀ e, collectDependencies allTasks fuel t st = .error e → e ≠ .fuelOut)
     ∧ (containsKey allTasks t = true →
        (∀ v, Relation.ReflTransGen (depEdge allTasks) t v → containsKey allTasks v = true) →
        ∀ e, collectDependencies allTasks fuel t st = .error e →
          ∃ msg, e = .configuration msg ∧ containsCircular msg = true))

/-- What a successful dependency loop guarantees. -/
def DepsLoopPost (allTasks : TaskMap) (deps : List String) (st st' : CollectState) : Prop :=
  CollectInv allTasks st' ∧ st'.stack = st.stack ∧
  (∀ v ∈ st.visited, v ∈ st'.visited) ∧ (∀ d ∈ deps, d ∈ st'.visited) ∧
  (∀ v ∈ st'.visited, v ∈ st.visited ∨
    ∃ d ∈ deps, Relation.ReflTransGen (depEdge allTasks) d v)

theorem depsLoopF_spec (allTasks : TaskMap) (fuel : Nat) (tname : String)
    (hP : CollectSpec allTasks fuel) :
    ∀ (deps : List String) (st : CollectState), CollectPre allTasks st →
    (keysOf allTasks).length < fuel + st.stack.length →
    ((∀ st', depsLoopF allTasks fuel tname deps st = .ok st' →
        DepsLoopPost allTasks deps st st')
     ∧ (∀ e, depsLoopF allTasks fuel tname deps st = .error e → e ≠ .fuelOut)
     ∧ ((∀ d ∈ deps, containsKey allTasks d = true ∧
          (∀ v, Relation.ReflTransGen (depEdge allTasks) d v → containsKey allTasks v = true)) →
        ∀ e, depsLoopF allTasks fuel tname deps st = .error e →
          ∃ msg, e = .configuration msg ∧ containsCircular msg = true)) := by
  intro deps
  induction deps with
  | nil =>
    intro st hpre hfuel
    refine ⟨?_, ?_, ?_⟩
    · intro st' hok
      rw [depsLoopF_nil] at hok
      injection hok with h2
      subst h2
      exact ⟨hpre.1, rfl, fun v hv => hv, fun d hd => absurd hd (List.not_mem_nil d),
        fun v hv => Or.inl hv⟩
    · intro e herr
      rw [depsLoopF_nil] at herr
      exact absurd herr (by simp)
    · intro _ e herr
      rw [depsLoopF_nil] at herr
      exact absurd herr (by simp)
  | cons d rest ihq =>
    intro st hpre hfuel
    by_cases hd : containsKey allTasks d
    · rcases hc : collectDependencies allTasks fuel d st with e | st1
      · have hstep : depsLoopF allTasks fuel tname (d :: rest) st = .error e := by
          rw [depsLoopF_cons, if_pos hd, hc]
        refine ⟨?_, ?_, ?_⟩
        · intro st' hok
          rw [hstep] at hok
          exact absurd hok (by simp)
        · intro e' herr
          rw [hstep] at herr
          injection herr with h2
          subst h2
          exact (hP d st hpre hfuel).2.1 e hc
        · intro hreach e' herr
          rw [hstep] at herr
          injection herr with h2
          subst h2
          exact (hP d st hpre hfuel).2.2 (hreach d (List.mem_cons_self d rest)).1
            (hreach d (List.mem_cons_self d rest)).2 e hc
      · have hstep : depsLoopF allTasks fuel tname (d :: rest) st =
            depsLoopF allTasks fuel tname rest st1 := by
          rw [depsLoopF_cons, if_pos hd, hc]
        obtain ⟨hinv1, hstack1, hmono1, hdvis1, hsound1⟩ := (hP d st hpre hfuel).1 st1 hc
        have hpre1 : CollectPre allTasks st1 :=
          ⟨hinv1, by rw [hstack1]; exact hpre.2.1, by rw [hstack1]; exact hpre.2.2⟩
        have hfuel1 : (keysOf allTasks).length < fuel + st1.stack.length := by
          rw [hstack1]
          exact hfuel
        have ihrest := ihq st1 hpre1 hfuel1
        refine ⟨?_, ?_, ?_⟩
        · intro st' hok
          rw [hstep] at hok
          obtain ⟨hinv', hstack', hmono', hdeps', hsound'⟩ := ihrest.1 st' hok
          refine ⟨hinv', by rw [hstack', hstack1], fun v hv => hmono' v (hmono1 v hv), ?_, ?_⟩
          · intro d0 hd0
            rcases List.mem_cons.mp hd0 with h | h
            · subst h
              exact hmono' d0 hdvis1
            · exact hdeps' d0 h
          · intro v hv
            rcases hsound' v hv with h | ⟨d0, hd0, hr⟩
            · rcases hsound1 v h with h2 | h2
              · exact Or.inl h2
              · exact Or.inr ⟨d, List.mem_cons_self d rest, h2⟩
            · exact Or.inr ⟨d0, List.mem_cons_of_mem d hd0, hr⟩
        · intro e herr
          rw [hstep] at herr
          exact ihrest.2.1 e herr
        · intro hreach e herr
          rw [hstep] at herr
          exact ihrest.2.2 (fun d0 hd0 => hreach d0 (List.mem_cons_of_mem d hd0)) e herr
    · have hstep : depsLoopF allTasks fuel tname (d :: rest) st =
          .error (.configuration
            ("Dependency '" ++ d ++ "' of task '" ++ tname ++ "' not found")) := by
        rw [depsLoopF_cons, if_neg hd]
      refine ⟨?_, ?_, ?_⟩
      · intro st' hok
        rw [hstep] at hok
        exact absurd hok (by simp)
      · intro e herr
        rw [hstep] at herr
        injection herr with h2
        subst h2
        simp
      · intro hreach e herr
        exact absurd (hreach d (List.mem_cons_self d rest)).1 hd

theorem collect_master (allTasks : TaskMap) : ∀ fuel, CollectSpec allTasks fuel := by
  intro fuel
  induction fuel with
  | zero =>
    intro t st hpre hfuel
    exfalso
    have hle : st.stack.length ≤ (keysOf allTasks).length :=
      nodup_subset_length_le hpre.2.1
        (fun x hx => (containsKey_iff_mem_keysOf _ _).mp (hpre.2.2 x hx))
    omega
  | succ f ih =>
    intro t st hpre hfuel
    obtain ⟨hinv, hsn, hsk⟩ := hpre
    by_cases hstk : t ∈ st.stack
    · have hstep : collectDependencies allTasks (f + 1) t st =
          .error (.configuration
            ("Circular dependency detected involving task '" ++ t ++ "'")) := by
        rw [collectDependencies_succ, if_pos hstk]
      refine ⟨?_, ?_, ?_⟩
      · intro st' hok
        rw [hstep] at hok
        exact absurd hok (by simp)
      · intro e herr
        rw [hstep] at herr
        injection herr with h2
        subst h2
        simp
      · intro _ _ e herr
        rw [hstep] at herr
        injection herr with h2
        exact ⟨_, h2.symm, containsCircular_collect_msg t⟩
    · by_cases hvis : t ∈ st.visited
      · have hstep : collectDependencies allTasks (f + 1) t st = .ok st := by
          rw [collectDependencies_succ, if_neg hstk, if_pos hvis]
        refine ⟨?_, ?_, ?_⟩
        · intro st' hok
          rw [hstep] at hok
          injection hok with h2
          subst h2
          exact ⟨hinv, rfl, fun v hv => hv, hvis, fun v hv => Or.inl hv⟩
        · intro e herr
          rw [hstep] at herr
          exact absurd herr (by simp)
        · intro _ _ e herr
          rw [hstep] at herr
          exact absurd herr (by simp)
      · rcases hlk : lookupA allTasks t with _ | cfg
        · have hstep : collectDependencies allTasks (f + 1) t st =
              .error (.configuration ("Task '" ++ t ++ "' not found")) := by
            rw [collectDependencies_succ, if_neg hstk, if_neg hvis, hlk]
          refine ⟨?_, ?_, ?_⟩
          · intro st' hok
            rw [hstep] at hok
            exact absurd hok (by simp)
          · intro e herr
            rw [hstep] at herr
            injection herr with h2
            subst h2
            simp
          · intro hpresent _ e herr
            obtain ⟨v, hv⟩ := lookupA_isSome_of_contains hpresent
            rw [hlk] at hv
            exact absurd hv (by simp)
        · have hstep0 : collectDependencies allTasks (f + 1) t st =
              match depsLoopF allTasks f t (cfg.dependencies.getD [])
                  ⟨st.taskDependencies, st.visited, t :: st.stack⟩ with
              | .error e => .error e
              | .ok st2 =>
                .ok ⟨insertA st2.taskDependencies t (cfg.dependencies.getD []),
                     t :: st2.visited, st2.stack.erase t⟩ := by
            rw [collectDependencies_succ, if_neg hstk, if_neg hvis, hlk]
          have hpre1 : CollectPre allTasks ⟨st.taskDependencies, st.visited, t :: st.stack⟩ := by
            refine ⟨⟨hinv.visitedNodup, hinv.keysNodup, hinv.keysVisited, hinv.entriesWF,
              hinv.closed, ?_⟩, ?_, ?_⟩
            · intro v hv
              rw [List.mem_cons]
              rintro (h | h)
              · subst h
                exact hvis hv
              · exact hinv.visitedStack v hv h
            · exact List.nodup_cons.mpr ⟨hstk, hsn⟩
            · intro s hs
              rcases List.mem_cons.mp hs with h | h
              · subst h
                exact contains_of_lookupA hlk
              · exact hsk s h
          have hfuel1 : (keysOf allTasks).length <
              f + (⟨st.taskDependencies, st.visited, t :: st.stack⟩ : CollectState).stack.length := by
            simp only [List.length_cons]
            omega
          have hq := depsLoopF_spec allTasks f t ih (cfg.dependencies.getD [])
            ⟨st.taskDependencies, st.visited, t :: st.stack⟩ hpre1 hfuel1
          rcases hloop : depsLoopF allTasks f t (cfg.dependencies.getD [])
              ⟨st.taskDependencies, st.visited, t :: st.stack⟩ with e | st2
          · have hstep : collectDependencies allTasks (f + 1) t st = .error e := by
              rw [hstep0, hloop]
            refine ⟨?_, ?_, ?_⟩
            · intro st' hok
              rw [hstep] at hok
              exact absurd hok (by simp)
            · intro e' herr
              rw [hstep] at herr
              injection herr with h2
              subst h2
              exact hq.2.1 e hloop
            · intro _ hreach e' herr
              rw [hstep] at herr
              injection herr with h2
              subst h2
              refine hq.2.2 ?_ e hloop
              intro d0 hd0
              have hedge : depEdge allTasks t d0 := ⟨cfg, hlk, hd0⟩
              exact ⟨hreach d0 (Relation.ReflTransGen.single hedge),
                fun v hv => hreach v (Relation.ReflTransGen.head hedge hv)⟩
          · have hstep : collectDependencies allTasks (f + 1) t st =
                .ok ⟨insertA st2.taskDependencies t (cfg.dependencies.getD []),
                     t :: st2.visited, st2.stack.erase t⟩ := by
              rw [hstep0, hloop]
            obtain ⟨hinv2, hstack2, hmono2, hdeps2, hsound2⟩ := hq.1 st2 hloop
            have hstack2' : st2.stack = t :: st.stack := hstack2
            have htvis2 : t ∉ st2.visited := by
              intro hcon
              have := hinv2.visitedStack t hcon
              rw [hstack2'] at this
              exact this (List.mem_cons_self t st.stack)
            have htkeys2 : ¬ containsKey st2.taskDependencies t = true := by
              intro hcon
              exact htvis2 ((hinv2.keysVisited t).mp
                ((containsKey_iff_mem_keysOf _ _).mp hcon))
            refine ⟨?_, ?_, ?_⟩
            · intro st' hok
              rw [hstep] at hok
              injection hok with h2
              subst h2
              refine ⟨⟨?_, ?_, ?_, ?_, ?_, ?_⟩, ?_, ?_, ?_, ?_⟩
              · exact List.nodup_cons.mpr ⟨htvis2, hinv2.visitedNodup⟩
              · exact nodup_keysOf_insertA t (cfg.dependencies.getD []) hinv2.keysNodup
              · intro x
                rw [keysOf_insertA, if_neg htkeys2]
                constructor
                · intro hx
                  rcases List.mem_append.mp hx with h | h
                  · exact List.mem_cons_of_mem t ((hinv2.keysVisited x).mp h)
                  · simp at h
                    rw [h]
                    exact List.mem_cons_self t st2.visited
                · intro hx
                  rcases List.mem_cons.mp hx with h | h
                  · subst h
                    exact List.mem_append.mpr (Or.inr (by simp))
                  · exact List.mem_append.mpr (Or.inl ((hinv2.keysVisited x).mpr h))
              · intro p hp
                rw [insertA, if_neg htkeys2] at hp
                rcases List.mem_append.mp hp with h | h
                · exact hinv2.entriesWF p h
                · simp at h
                  rcases p with ⟨pk, pv⟩
                  simp at h
                  obtain ⟨hk, hv⟩ := h
                  subst hk
                  subst hv
                  exact ⟨cfg, hlk, rfl⟩
              · intro v hv d hd
                rcases List.mem_cons.mp hv with h | h
                · rw [h] at hd
                  obtain ⟨cfg', hlk', hd'⟩ := hd
                  rw [hlk] at hlk'
                  injection hlk' with hlk'
                  subst hlk'
                  exact List.mem_cons_of_mem t (hdeps2 d hd')
                · exact List.mem_cons_of_mem t (hinv2.closed v h d hd)
              · intro v hv
                rcases List.mem_cons.mp hv with h | h
                · subst h
                  rw [hstack2', List.erase_cons_head]
                  exact hstk
                · intro hcon
                  exact hinv2.visitedStack v h (List.mem_of_mem_erase hcon)
              · rw [hstack2', List.erase_cons_head]
              · intro v hv
                exact List.mem_cons_of_mem t (hmono2 v hv)
              · exact List.mem_cons_self t st2.visited
              · intro v hv
                rcases List.mem_cons.mp hv with h | h
                · subst h
                  exact Or.inr Relation.ReflTransGen.refl
                · rcases hsound2 v h with h2 | ⟨d0, hd0, hr⟩
                  · exact Or.inl h2
                  · exact Or.inr (Relation.ReflTransGen.head ⟨cfg, hlk, hd0⟩ hr)
            · intro e herr
              rw [hstep] at herr
              exact absurd herr (by simp)
            · intro _ _ e herr
              rw [hstep] at herr
              exact absurd herr (by simp)

/-! ## Characterizing `topoInit` -/

/-- The dependency list a `DepMap` records for a task (empty if absent). -/
def depsOfD (deps : DepMap) (t : String) : List String := (lookupA deps t).getD []

/-- Occurrences of `x` in the dependents list `graph[d]`. -/
def countG (g : DepMap) (d x : String) : Nat := ((lookupA g d).getD []).count x

/-- One dependency iteration of the init loop of `topological_sort`
(lines 210-214), named for the proofs; `topoInit` folds it. -/
def topoDepStep (task : String) (acc2 : List (String × Int) × DepMap) (dep : String) :
    List (String × Int) × DepMap :=
  (addDeg (entryOr acc2.1 dep 0) task, pushDependent acc2.2 dep task)

/-- One entry iteration of the init loop (lines 206-215). -/
def topoInitStep (acc : List (String × Int) × DepMap) (entry : String × List String) :
    List (String × Int) × DepMap :=
  entry.2.foldl (topoDepStep entry.1) (entryOr acc.1 entry.1 0, entryOr acc.2 entry.1 [])

theorem topoInit_eq (dependencies : DepMap) :
    topoInit dependencies = dependencies.foldl topoInitStep ([], []) := rfl

theorem countG_entryOr (g : DepMap) (k d x : String) :
    countG (entryOr g k []) d x = countG g d x := by
  unfold countG
  rw [lookupA_entryOr]
  by_cases h : d = k
  · subst h
    rcases hl : lookupA g d with _ | l <;> simp [hl]
  · rw [if_neg h]

theorem countG_pushDependent (g : DepMap) (dep task d x : String) :
    countG (pushDependent g dep task) d x =
      countG g d x + (if d = dep ∧ x = task then 1 else 0) := by
  unfold countG
  rw [lookupA_pushDependent]
  by_cases h : d = dep
  · subst h
    simp only [if_pos rfl, Option.getD_some, List.count_append]
    by_cases hx : x = task
    · subst hx
      simp [List.count_singleton]
    · simp [hx, List.count_singleton']
  · simp [h]

theorem topoDepFold_deg (task : String) :
    ∀ (ds : List String) (acc : List (String × Int) × DepMap),
    containsKey acc.1 task = true →
    ∀ x, lookupA (ds.foldl (topoDepStep task) acc).1 x =
      if x = task then (lookupA acc.1 task).map (fun v => v + (ds.length : Int))
      else if x ∈ ds then some ((lookupA acc.1 x).getD 0)
      else lookupA acc.1 x := by
  intro ds
  induction ds with
  | nil =>
    intro acc hmem x
    simp only [List.foldl_nil, List.length_nil, List.not_mem_nil, if_false]
    by_cases hx : x = task
    · subst hx
      obtain ⟨v, hv⟩ := lookupA_isSome_of_contains hmem
      simp [hv]
    · simp [hx]
  | cons d ds' ih =>
    intro acc hmem x
    simp only [List.foldl_cons]
    have hmem1 : containsKey (topoDepStep task acc d).1 task = true := by
      unfold topoDepStep
      rw [containsKey_iff_mem_keysOf] at hmem ⊢
      rw [keysOf_addDeg, keysOf_entryOr]
      by_cases hc : containsKey acc.1 d
      · rw [if_pos hc]
        exact hmem
      · rw [if_neg hc]
        exact List.mem_append.mpr (Or.inl hmem)
    rw [ih (topoDepStep task acc d) hmem1 x]
    have hstep1 : lookupA (topoDepStep task acc d).1 task =
        (lookupA acc.1 task).map (fun v => v + 1) := by
      unfold topoDepStep
      rw [lookupA_addDeg, if_pos rfl, lookupA_entryOr]
      by_cases htd : task = d
      · rw [if_pos htd]
        obtain ⟨v, hv⟩ := lookupA_isSome_of_contains hmem
        rw [htd] at hv
        simp [htd, hv]
      · rw [if_neg htd]
    by_cases hx : x = task
    · subst hx
      rw [if_pos rfl, if_pos rfl, hstep1]
      rcases hv : lookupA acc.1 x with _ | v
      · simp
      · simp only [Option.map]
        rw [List.length_cons]
        congr 1
        push_cast
        omega
    · rw [if_neg hx, if_neg hx]
      have hstep2 : lookupA (topoDepStep task acc d).1 x =
          if x = d then some ((lookupA acc.1 d).getD 0) else lookupA acc.1 x := by
        unfold topoDepStep
        rw [lookupA_addDeg, if_neg hx, lookupA_entryOr]
      by_cases hxd : x = d
      · subst hxd
        rw [if_pos (List.mem_cons_self x ds')]
        by_cases hxds : x ∈ ds'
        · rw [if_pos hxds, hstep2, if_pos rfl]
          simp
        · rw [if_neg hxds, hstep2, if_pos rfl]
      · rw [hstep2, if_neg hxd]
        by_cases hxds : x ∈ ds'
        · rw [if_pos hxds, if_pos (List.mem_cons_of_mem d hxds)]
        · rw [if_neg hxds, if_neg (fun hc => (List.mem_cons.mp hc).elim hxd hxds)]

theorem topoDepFold_keys (task : String) :
    ∀ (ds : List String) (acc : List (String × Int) × DepMap),
    (∀ x, x ∈ keysOf (ds.foldl (topoDepStep task) acc).1 ↔ x ∈ keysOf acc.1 ∨ x ∈ ds)
    ∧ ((keysOf acc.1).Nodup → (keysOf (ds.foldl (topoDepStep task) acc).1).Nodup) := by
  intro ds
  induction ds with
  | nil =>
    intro acc
    constructor
    · intro x
      simp
    · intro h
      exact h
  | cons d ds' ih =>
    intro acc
    have hkeys1 : ∀ x, x ∈ keysOf (topoDepStep task acc d).1 ↔ (x ∈ keysOf acc.1 ∨ x = d) := by
      intro x
      unfold topoDepStep
      rw [keysOf_addDeg, keysOf_entryOr]
      by_cases hc : containsKey acc.1 d
      · rw [if_pos hc]
        constructor
        · exact Or.inl
        · rintro (h | h)
          · exact h
          · subst h
            exact (containsKey_iff_mem_keysOf _ _).mp hc
      · rw [if_neg hc]
        simp [List.mem_append]
    constructor
    · intro x
      simp only [List.foldl_cons]
      rw [(ih (topoDepStep task acc d)).1 x, hkeys1 x, List.mem_cons]
      tauto
    · intro hnd
      simp only [List.foldl_cons]
      refine (ih (topoDepStep task acc d)).2 ?_
      unfold topoDepStep
      rw [keysOf_addDeg]
      exact nodup_keysOf_entryOr d 0 hnd

theorem topoDepFold_graph (task : String) :
    ∀ (ds : List String) (acc : List (String × Int) × DepMap),
    ∀ d x, countG (ds.foldl (topoDepStep task) acc).2 d x =
      countG acc.2 d x + (if x = task then ds.count d else 0) := by
  intro ds
  induction ds with
  | nil =>
    intro acc d x
    simp
  | cons e ds' ih =>
    intro acc d x
    simp only [List.foldl_cons]
    rw [ih (topoDepStep task acc e) d x]
    have hstep : countG (topoDepStep task acc e).2 d x =
        countG acc.2 d x + (if d = e ∧ x = task then 1 else 0) := by
      unfold topoDepStep
      exact countG_pushDependent acc.2 e task d x
    rw [hstep, List.count_cons]
    by_cases hx : x = task
    · by_cases hde : d = e
      · subst hde
        simp [hx, beq_iff_eq]
        omega
      · have : ¬ (e == d) = true := by
          simp [beq_iff_eq]
          exact fun h => hde h.symm
        simp [hx, hde, this]
    · simp [hx]

theorem topoFold_deg :
    ∀ (entries : DepMap) (acc : List (String × Int) × DepMap),
    (keysOf entries).Nodup →
    ∀ t, lookupA (entries.foldl topoInitStep acc).1 t =
      if t ∈ keysOf entries then
        some ((lookupA acc.1 t).getD 0 + ((depsOfD entries t).length : Int))
      else if ∃ p ∈ entries, t ∈ p.2 then some ((lookupA acc.1 t).getD 0)
      else lookupA acc.1 t := by
  intro entries
  induction entries with
  | nil =>
    intro acc _ t
    simp [keysOf, depsOfD]
  | cons entry rest ih =>
    rcases entry with ⟨task, ds⟩
    intro acc hnd t
    have hndr : (keysOf rest).Nodup := by
      simp only [keysOf, List.map_cons, List.nodup_cons] at hnd
      exact hnd.2
    have htask : task ∉ keysOf rest := by
      simp only [keysOf, List.map_cons, List.nodup_cons] at hnd
      exact hnd.1
    have hmem0 : containsKey (entryOr acc.1 task 0) task = true := by
      rw [containsKey_iff_mem_keysOf, keysOf_entryOr]
      by_cases hc : containsKey acc.1 task
      · rw [if_pos hc]
        exact (containsKey_iff_mem_keysOf _ _).mp hc
      · rw [if_neg hc]
        simp
    have hacc1 : ∀ x, lookupA (topoInitStep acc (task, ds)).1 x =
        if x = task then some ((lookupA acc.1 task).getD 0 + (ds.length : Int))
        else if x ∈ ds then some ((lookupA acc.1 x).getD 0)
        else lookupA acc.1 x := by
      intro x
      unfold topoInitStep
      rw [topoDepFold_deg task ds (entryOr acc.1 task 0, entryOr acc.2 task []) hmem0 x]
      by_cases hx : x = task
      · rw [if_pos hx, if_pos hx]
        simp only
        rw [lookupA_entryOr, if_pos rfl]
        simp
      · rw [if_neg hx, if_neg hx]
        by_cases hds : x ∈ ds
        · rw [if_pos hds, if_pos hds]
          simp only
          rw [lookupA_entryOr, if_neg hx]
        · rw [if_neg hds, if_neg hds]
          simp only
          rw [lookupA_entryOr, if_neg hx]
    have hgetD : ∀ x, x ≠ task →
        (lookupA (topoInitStep acc (task, ds)).1 x).getD 0 = (lookupA acc.1 x).getD 0 := by
      intro x hx
      rw [hacc1 x, if_neg hx]
      by_cases hds : x ∈ ds
      · rw [if_pos hds]
        rfl
      · rw [if_neg hds]
    simp only [List.foldl_cons]
    rw [ih (topoInitStep acc (task, ds)) hndr t]
    have hkeyscons : keysOf ((task, ds) :: rest) = task :: keysOf rest := rfl
    by_cases ht : t = task
    · subst ht
      rw [if_neg (fun h => htask h), hkeyscons, if_pos (List.mem_cons_self t (keysOf rest))]
      have hdeps : depsOfD ((t, ds) :: rest) t = ds := by
        unfold depsOfD
        rw [lookupA_cons, if_pos rfl]
        simp
      rw [hdeps]
      by_cases hex : ∃ p ∈ rest, t ∈ p.2
      · rw [if_pos hex, hacc1 t, if_pos rfl]
        simp
      · rw [if_neg hex, hacc1 t, if_pos rfl]
    · have hdeps : depsOfD ((task, ds) :: rest) t = depsOfD rest t := by
        unfold depsOfD
        rw [lookupA_cons, if_neg (fun h => ht h.symm)]
      have hmemcons : (t ∈ keysOf ((task, ds) :: rest)) ↔ t ∈ keysOf rest := by
        rw [hkeyscons, List.mem_cons]
        exact ⟨fun h => h.elim (fun h2 => absurd h2 ht) id, Or.inr⟩
      by_cases hkr : t ∈ keysOf rest
      · rw [if_pos hkr, if_pos (hmemcons.mpr hkr), hdeps, hgetD t ht]
      · rw [if_neg hkr, if_neg (fun h => hkr (hmemcons.mp h))]
        by_cases hex : ∃ p ∈ rest, t ∈ p.2
        · have hex' : ∃ p ∈ (task, ds) :: rest, t ∈ p.2 := by
            obtain ⟨p, hp, hpt⟩ := hex
            exact ⟨p, List.mem_cons_of_mem _ hp, hpt⟩
          rw [if_pos hex, if_pos hex', hgetD t ht]
        · rw [if_neg hex, hacc1 t, if_neg ht]
          by_cases hds : t ∈ ds
          · have hex' : ∃ p ∈ (task, ds) :: rest, t ∈ p.2 :=
              ⟨(task, ds), List.mem_cons_self _ _, hds⟩
            rw [if_pos hds, if_pos hex']
          · have hex' : ¬ ∃ p ∈ (task, ds) :: rest, t ∈ p.2 := by
              rintro ⟨p, hp, hpt⟩
              rcases List.mem_cons.mp hp with h | h
              · subst h
                exact hds hpt
              · exact hex ⟨p, h, hpt⟩
            rw [if_neg hds, if_neg hex']

theorem topoFold_graph :
    ∀ (entries : DepMap) (acc : List (String × Int) × DepMap),
    (keysOf entries).Nodup →
    ∀ d x, countG (entries.foldl topoInitStep acc).2 d x =
      countG acc.2 d x + (if x ∈ keysOf entries then (depsOfD entries x).count d else 0) := by
  intro entries
  induction entries with
  | nil =>
    intro acc _ d x
    simp [keysOf]
  | cons entry rest ih =>
    rcases entry with ⟨task, ds⟩
    intro acc hnd d x
    have hndr : (keysOf rest).Nodup := by
      simp only [keysOf, List.map_cons, List.nodup_cons] at hnd
      exact hnd.2
    have htask : task ∉ keysOf rest := by
      simp only [keysOf, List.map_cons, List.nodup_cons] at hnd
      exact hnd.1
    have hstep : countG (topoInitStep acc (task, ds)).2 d x =
        countG acc.2 d x + (if x = task then ds.count d else 0) := by
      unfold topoInitStep
      rw [topoDepFold_graph task ds (entryOr acc.1 task 0, entryOr acc.2 task []) d x]
      simp only
      rw [countG_entryOr]
    simp only [List.foldl_cons]
    rw [ih (topoInitStep acc (task, ds)) hndr d x, hstep]
    have hkeyscons : keysOf ((task, ds) :: rest) = task :: keysOf rest := rfl
    by_cases hx : x = task
    · subst hx
      rw [if_pos rfl, if_neg htask, hkeyscons, if_pos (List.mem_cons_self x (keysOf rest))]
      have hdeps : depsOfD ((x, ds) :: rest) x = ds := by
        unfold depsOfD
        rw [lookupA_cons, if_pos rfl]
        simp
      rw [hdeps]
      omega
    · rw [if_neg hx]
      have hdeps : depsOfD ((task, ds) :: rest) x = depsOfD rest x := by
        unfold depsOfD
        rw [lookupA_cons, if_neg (fun h => hx h.symm)]
      have hmemcons : (x ∈ keysOf ((task, ds) :: rest)) ↔ x ∈ keysOf rest := by
        rw [hkeyscons, List.mem_cons]
        exact ⟨fun h => h.elim (fun h2 => absurd h2 hx) id, Or.inr⟩
      by_cases hkr : x ∈ keysOf rest
      · rw [if_pos hkr, if_pos (hmemcons.mpr hkr), hdeps]
        omega
      · rw [if_neg hkr, if_neg (fun h => hkr (hmemcons.mp h))]

theorem topoFold_indkeys :
    ∀ (entries : DepMap) (acc : List (String × Int) × DepMap),
    (∀ x, x ∈ keysOf (entries.foldl topoInitStep acc).1 ↔
      x ∈ keysOf acc.1 ∨ x ∈ keysOf entries ∨ ∃ p ∈ entries, x ∈ p.2)
    ∧ ((keysOf acc.1).Nodup → (keysOf (entries.foldl topoInitStep acc).1).Nodup) := by
  intro entries
  induction entries with
  | nil =>
    intro acc
    constructor
    · intro x
      simp [keysOf]
    · exact id
  | cons entry rest ih =>
    rcases entry with ⟨task, ds⟩
    intro acc
    have hkeys1 : ∀ x, x ∈ keysOf (topoInitStep acc (task, ds)).1 ↔
        (x ∈ keysOf acc.1 ∨ x = task) ∨ x ∈ ds := by
      intro x
      unfold topoInitStep
      rw [(topoDepFold_keys task ds (entryOr acc.1 task 0, entryOr acc.2 task [])).1 x]
      simp only
      rw [keysOf_entryOr]
      by_cases hc : containsKey acc.1 task
      · rw [if_pos hc]
        constructor
        · rintro (h | h)
          · exact Or.inl (Or.inl h)
          · exact Or.inr h
        · rintro ((h | h) | h)
          · exact Or.inl h
          · rw [h]
            exact Or.inl ((containsKey_iff_mem_keysOf _ _).mp hc)
          · exact Or.inr h
      · rw [if_neg hc]
        simp [List.mem_append]
    constructor
    · intro x
      simp only [List.foldl_cons]
      rw [(ih (topoInitStep acc (task, ds))).1 x, hkeys1 x]
      have hexcons : (∃ p ∈ (task, ds) :: rest, x ∈ p.2) ↔
          (x ∈ ds ∨ ∃ p ∈ rest, x ∈ p.2) := by
        constructor
        · rintro ⟨p, hp, hpx⟩
          rcases List.mem_cons.mp hp with h | h
          · subst h
            exact Or.inl hpx
          · exact Or.inr ⟨p, h, hpx⟩
        · rintro (h | ⟨p, hp, hpx⟩)
          · exact ⟨(task, ds), List.mem_cons_self _ _, h⟩
          · exact ⟨p, List.mem_cons_of_mem _ hp, hpx⟩
      rw [hexcons]
      have hkeyscons : keysOf ((task, ds) :: rest) = task :: keysOf rest := rfl
      rw [hkeyscons, List.mem_cons]
      tauto
    · intro hnd
      simp only [List.foldl_cons]
      refine (ih (topoInitStep acc (task, ds))).2 ?_
      unfold topoInitStep
      refine (topoDepFold_keys task ds (entryOr acc.1 task 0, entryOr acc.2 task [])).2 ?_
      simp only
      exact nodup_keysOf_entryOr task 0 hnd

theorem topoInit_deg (dependencies : DepMap) (hnd : (keysOf dependencies).Nodup)
    (t : String) (ht : t ∈ keysOf dependencies) :
    lookupA (topoInit dependencies).1 t = some ((depsOfD dependencies t).length : Int) := by
  rw [topoInit_eq, topoFold_deg dependencies ([], []) hnd t, if_pos ht]
  simp [lookupA]

theorem topoInit_keys (dependencies : DepMap) :
    ∀ x, x ∈ keysOf (topoInit dependencies).1 ↔
      x ∈ keysOf dependencies ∨ ∃ p ∈ dependencies, x ∈ p.2 := by
  intro x
  rw [topoInit_eq, (topoFold_indkeys dependencies ([], [])).1 x]
  simp [keysOf]

theorem topoInit_keys_nodup (dependencies : DepMap) :
    (keysOf (topoInit dependencies).1).Nodup := by
  rw [topoInit_eq]
  exact (topoFold_indkeys dependencies ([], [])).2 (by simp [keysOf])

theorem topoInit_graph (dependencies : DepMap) (hnd : (keysOf dependencies).Nodup)
    (d x : String) :
    countG (topoInit dependencies).2 d x =
      if x ∈ keysOf dependencies then (depsOfD dependencies x).count d else 0 := by
  rw [topoInit_eq, topoFold_graph dependencies ([], []) hnd d x]
  simp [countG, lookupA]

/-! ## The Kahn drain loop: invariant machinery -/

/-- Total number of dependents-list occurrences of `t` released by draining
the nodes of `S`. -/
def inflow (g : DepMap) (t : String) (S : List String) : Int :=
  (S.map (fun d => (countG g d t : Int))).sum

theorem inflow_append (g : DepMap) (t : String) (A B : List String) :
    inflow g t (A ++ B) = inflow g t A + inflow g t B := by
  unfold inflow
  rw [List.map_append, List.sum_append]

theorem inflow_nonneg (g : DepMap) (t : String) (S : List String) :
    0 ≤ inflow g t S := by
  unfold inflow
  refine List.sum_nonneg ?_
  intro x hx
  rw [List.mem_map] at hx
  obtain ⟨d, _, hd⟩ := hx
  rw [← hd]
  exact Int.natCast_nonneg _

theorem sum_map_add_distrib {α : Type} (f g : α → Nat) :
    ∀ S : List α, (S.map (fun d => f d + g d)).sum = (S.map f).sum + (S.map g).sum := by
  intro S
  induction S with
  | nil => rfl
  | cons d S' ih =>
    simp only [List.map_cons, List.sum_cons, ih]
    omega

theorem sum_indicator (x : String) :
    ∀ S : List String, S.Nodup →
    (S.map (fun d => if (x == d) = true then 1 else 0)).sum = if x ∈ S then 1 else 0 := by
  intro S
  induction S with
  | nil => simp
  | cons d S' ih =>
    intro hnd
    rw [List.nodup_cons] at hnd
    simp only [List.map_cons, List.sum_cons, ih hnd.2]
    by_cases hx : x = d
    · subst hx
      rw [if_pos (by simp), if_pos (List.mem_cons_self x S'), if_neg hnd.1]
    · rw [if_neg (by simp [hx])]
      by_cases hmem : x ∈ S'
      · rw [if_pos hmem, if_pos (List.mem_cons_of_mem d hmem)]
      · rw [if_neg hmem, if_neg (fun h => ((List.mem_cons.mp h).elim hx hmem))]

theorem sum_count_eq_countP :
    ∀ (l S : List String), S.Nodup →
    (S.map (fun d => l.count d)).sum = l.countP (fun a => decide (a ∈ S)) := by
  intro l
  induction l with
  | nil =>
    intro S _
    have : S.map (fun d => ([] : List String).count d) = S.map (fun _ => 0) := by
      refine List.map_congr_left ?_
      intro d _
      rfl
    rw [this]
    simp
  | cons x l' ih =>
    intro S hnd
    have hpt : S.map (fun d => (x :: l').count d) =
        S.map (fun d => l'.count d + if (x == d) = true then 1 else 0) := by
      refine List.map_congr_left ?_
      intro d _
      rw [List.count_cons]
    rw [hpt, sum_map_add_distrib, ih S hnd, sum_indicator x S hnd, List.countP_cons]
    simp

theorem sum_count_le_length (S : List String) (l : List String) (hnd : S.Nodup) :
    (S.map (fun d => l.count d)).sum ≤ l.length := by
  rw [sum_count_eq_countP l S hnd]
  exact List.countP_le_length _

/-- `processTask` is the fold of single decrements over the dependents
list (empty when the task has none). -/
theorem processTask_eq (g : DepMap) (st : List (String × Int) × List String) (task : String) :
    processTask g st task = ((lookupA g task).getD []).foldl decrementDependent st := by
  unfold processTask
  rcases h : lookupA g task with _ | l <;> simp [h]

theorem foldl_flatten_eq {α β : Type} :
    ∀ (L : List (List α)) (f : β → α → β) (b : β),
    (L.join).foldl f b = L.foldl (fun acc l => l.foldl f acc) b := by
  intro L
  induction L with
  | nil =>
    intro f b
    rfl
  | cons l L' ih =>
    intro f b
    show ((l ++ L'.join).foldl f b) = _
    rw [List.foldl_append]
    exact ih f (l.foldl f b)

/-- Draining a whole level is the fold of single decrements over the
flattened dependents lists of the level. -/
theorem processLevel_eq (g : DepMap) (level : List String)
    (st : List (String × Int) × List String) :
    level.foldl (processTask g) st =
      ((level.map (fun d => (lookupA g d).getD [])).join).foldl decrementDependent st := by
  rw [foldl_flatten_eq]
  induction level generalizing st with
  | nil => rfl
  | cons d rest ih =>
    simp only [List.map_cons, List.foldl_cons]
    rw [processTask_eq, ih]

theorem count_flatten_inflow (g : DepMap) (level : List String) (t : String) :
    (((level.map (fun d => (lookupA g d).getD [])).join).count t : Int) =
      inflow g t level := by
  unfold inflow
  induction level with
  | nil => simp
  | cons d rest ih =>
    have hcons : ((d :: rest).map (fun d => (lookupA g d).getD [])).join =
        ((lookupA g d).getD []) ++ (rest.map (fun d => (lookupA g d).getD [])).join := rfl
    rw [hcons, List.count_append]
    simp only [List.map_cons, List.sum_cons]
    push_cast
    rw [ih]
    rfl

theorem decrementDependent_none (ind : List (String × Int)) (q : List String) (e : String)
    (h : lookupA ind e = none) : decrementDependent (ind, q) e = (ind, q) := by
  unfold decrementDependent
  rw [h]

theorem decrementDependent_some (ind : List (String × Int)) (q : List String) (e : String)
    (deg : Int) (h : lookupA ind e = some deg) :
    decrementDependent (ind, q) e =
      (setVal ind e (deg - 1), if deg - 1 = 0 then q ++ [e] else q) := by
  unfold decrementDependent
  rw [h]
  by_cases hz : deg - 1 = 0 <;> simp [hz]

theorem decFold_spec :
    ∀ (evs : List String) (ind : List (String × Int)) (q : List String),
    keysOf ((evs.foldl decrementDependent (ind, q)).1) = keysOf ind
    ∧ (∀ t v, lookupA ind t = some v →
        lookupA ((evs.foldl decrementDependent (ind, q)).1) t = some (v - (evs.count t : Int)))
    ∧ (∀ t, lookupA ind t = none →
        lookupA ((evs.foldl decrementDependent (ind, q)).1) t = none)
    ∧ ∃ pushed, (evs.foldl decrementDependent (ind, q)).2 = q ++ pushed
        ∧ (∀ t v, lookupA ind t = some v →
            pushed.count t = if 1 ≤ v ∧ v ≤ (evs.count t : Int) then 1 else 0)
        ∧ (∀ t, lookupA ind t = none → pushed.count t = 0) := by
  intro evs
  induction evs with
  | nil =>
    intro ind q
    refine ⟨rfl, ?_, fun t h => h, [], by simp, ?_, fun t _ => rfl⟩
    · intro t v hv
      simp only [List.foldl_nil, hv, List.count_nil]
      congr 1
      omega
    · intro t v _
      simp only [List.count_nil, Nat.cast_zero]
      rw [if_neg (by omega)]
  | cons e rest ih =>
    intro ind q
    rcases hse : lookupA ind e with _ | deg
    · have hstep : (e :: rest).foldl decrementDependent (ind, q) =
          rest.foldl decrementDependent (ind, q) := by
        rw [List.foldl_cons, decrementDependent_none ind q e hse]
      obtain ⟨hk, hsome, hnone, pushed, hq, hpc, hpn⟩ := ih ind q
      rw [hstep]
      refine ⟨hk, ?_, hnone, pushed, hq, ?_, hpn⟩
      · intro t v hv
        have hte : e ≠ t := by
          intro hcon
          rw [hcon, hv] at hse
          exact absurd hse (by simp)
        have hct : List.count t (e :: rest) = List.count t rest := by
          rw [List.count_cons, if_neg (by simp only [beq_iff_eq]; exact hte), Nat.add_zero]
        rw [hct]
        exact hsome t v hv
      · intro t v hv
        have hte : e ≠ t := by
          intro hcon
          rw [hcon, hv] at hse
          exact absurd hse (by simp)
        have hct : List.count t (e :: rest) = List.count t rest := by
          rw [List.count_cons, if_neg (by simp only [beq_iff_eq]; exact hte), Nat.add_zero]
        rw [hct]
        exact hpc t v hv
    · have hstep : (e :: rest).foldl decrementDependent (ind, q) =
          rest.foldl decrementDependent
            (setVal ind e (deg - 1), if deg - 1 = 0 then q ++ [e] else q) := by
        rw [List.foldl_cons, decrementDependent_some ind q e deg hse]
      obtain ⟨hk, hsome, hnone, pushed', hq', hpc', hpn'⟩ :=
        ih (setVal ind e (deg - 1)) (if deg - 1 = 0 then q ++ [e] else q)
      rw [hstep]
      have hlk1 : ∀ t, lookupA (setVal ind e (deg - 1)) t =
          if t = e then some (deg - 1) else lookupA ind t := by
        intro t
        rw [lookupA_setVal]
        by_cases ht : t = e
        · rw [if_pos ht, if_pos ht, hse]
          rfl
        · rw [if_neg ht, if_neg ht]
      refine ⟨by rw [hk, keysOf_setVal], ?_, ?_,
        (if deg - 1 = 0 then [e] else []) ++ pushed', ?_, ?_, ?_⟩
      · intro t v hv
        by_cases hte : t = e
        · subst hte
          rw [hv] at hse
          injection hse with hse
          subst hse
          have h1 : lookupA (setVal ind t (v - 1)) t = some (v - 1) := by
            rw [hlk1, if_pos rfl]
          have hct : List.count t (t :: rest) = List.count t rest + 1 := by
            rw [List.count_cons, if_pos (by simp)]
          rw [hct, hsome t (v - 1) h1]
          congr 1
          push_cast
          omega
        · have h1 : lookupA (setVal ind e (deg - 1)) t = some v := by
            rw [hlk1, if_neg hte, hv]
          have hct : List.count t (e :: rest) = List.count t rest := by
            rw [List.count_cons,
              if_neg (by simp only [beq_iff_eq]; exact fun h => hte h.symm), Nat.add_zero]
          rw [hct]
          exact hsome t v h1
      · intro t hv
        have hte : t ≠ e := by
          intro hcon
          rw [hcon, hse] at hv
          exact absurd hv (by simp)
        have h1 : lookupA (setVal ind e (deg - 1)) t = none := by
          rw [hlk1, if_neg hte, hv]
        exact hnone t h1
      · rw [hq']
        by_cases hz : deg - 1 = 0 <;> simp [hz]
      · intro t v hv
        by_cases hte : t = e
        · subst hte
          rw [hv] at hse
          injection hse with hse
          subst hse
          have h1 : lookupA (setVal ind t (v - 1)) t = some (v - 1) := by
            rw [hlk1, if_pos rfl]
          have hct : List.count t (t :: rest) = List.count t rest + 1 := by
            rw [List.count_cons, if_pos (by simp)]
          have hcnt : List.count t (if v - 1 = 0 then [t] else ([] : List String)) =
              if v - 1 = 0 then 1 else 0 := by
            by_cases hz : v - 1 = 0
            · rw [if_pos hz, if_pos hz, List.count_singleton, if_pos (by simp)]
            · rw [if_neg hz, if_neg hz]
              rfl
          rw [List.count_append, hcnt, hpc' t (v - 1) h1, hct]
          split_ifs <;> push_cast at * <;> omega
        · have h1 : lookupA (setVal ind e (deg - 1)) t = some v := by
            rw [hlk1, if_neg hte, hv]
          have hct : List.count t (e :: rest) = List.count t rest := by
            rw [List.count_cons,
              if_neg (by simp only [beq_iff_eq]; exact fun h => hte h.symm), Nat.add_zero]
          have hcnt : List.count t (if deg - 1 = 0 then [e] else ([] : List String)) = 0 := by
            by_cases hz : deg - 1 = 0
            · rw [if_pos hz, List.count_singleton,
                if_neg (by simp only [beq_iff_eq]; exact fun h => hte h.symm)]
            · rw [if_neg hz]
              rfl
          rw [List.count_append, hcnt, hpc' t v h1, hct, Nat.zero_add]
      · intro t hv
        have hte : t ≠ e := by
          intro hcon
          rw [hcon, hse] at hv
          exact absurd hv (by simp)
        have h1 : lookupA (setVal ind e (deg - 1)) t = none := by
          rw [hlk1, if_neg hte, hv]
        have hcnt : List.count t (if deg - 1 = 0 then [e] else ([] : List String)) = 0 := by
          by_cases hz : deg - 1 = 0
          · rw [if_pos hz, List.count_singleton,
              if_neg (by simp only [beq_iff_eq]; exact fun h => hte h.symm)]
          · rw [if_neg hz]
            rfl
        rw [List.count_append, hcnt, hpn' t h1]

theorem cast_sum_nat (S : List String) (f : String → Nat) :
    (S.map (fun d => ((f d : Nat) : Int))).sum = (((S.map f).sum : Nat) : Int) := by
  induction S with
  | nil => simp
  | cons d S' ih =>
    simp only [List.map_cons, List.sum_cons, ih]
    push_cast
    ring

theorem inflow_eq_cast (deps : DepMap) (hnd : (keysOf deps).Nodup) (t : String)
    (ht : t ∈ keysOf deps) (S : List String) :
    inflow (topoInit deps).2 t S =
      (((S.map (fun d => (depsOfD deps t).count d)).sum : Nat) : Int) := by
  unfold inflow
  have hmap : S.map (fun d => ((countG (topoInit deps).2 d t : Nat) : Int)) =
      S.map (fun d => (((depsOfD deps t).count d : Nat) : Int)) := by
    refine List.map_congr_left ?_
    intro d _
    rw [topoInit_graph deps hnd d t, if_pos ht]
  rw [hmap, cast_sum_nat]

theorem inflow_le_len (deps : DepMap) (hnd : (keysOf deps).Nodup) (t : String)
    (ht : t ∈ keysOf deps) (S : List String) (hS : S.Nodup) :
    inflow (topoInit deps).2 t S ≤ ((depsOfD deps t).length : Int) := by
  rw [inflow_eq_cast deps hnd t ht S]
  exact_mod_cast sum_count_le_length S (depsOfD deps t) hS

theorem inflow_full (deps : DepMap) (hnd : (keysOf deps).Nodup) (t : String)
    (ht : t ∈ keysOf deps) (S : List String) (hS : S.Nodup)
    (hfull : inflow (topoInit deps).2 t S = ((depsOfD deps t).length : Int)) :
    ∀ d ∈ depsOfD deps t, d ∈ S := by
  rw [inflow_eq_cast deps hnd t ht S] at hfull
  have hnat : (S.map (fun d => (depsOfD deps t).count d)).sum = (depsOfD deps t).length := by
    exact_mod_cast hfull
  rw [sum_count_eq_countP (depsOfD deps t) S hS] at hnat
  intro d hd
  have := List.countP_eq_length.mp hnat d hd
  simpa using this

theorem inflow_prefix_le (g : DepMap) (t : String) (L : List (List String)) (k : Nat) :
    inflow g t ((L.take k).join) ≤ inflow g t L.join := by
  have hsplit : L.join = ((L.take k).join) ++ ((L.drop k).join) := by
    rw [← List.join_append, List.take_append_drop]
  rw [hsplit, inflow_append]
  have := inflow_nonneg g t ((L.drop k).join)
  omega

theorem mem_take_join_get {L : List (List String)} {k : Nat} {d : String}
    (hd : d ∈ (L.take k).join) : ∃ j, ∃ (hj : j < L.length), j < k ∧ d ∈ L.get ⟨j, hj⟩ := by
  rw [List.mem_join] at hd
  obtain ⟨l, hl, hdl⟩ := hd
  obtain ⟨j, hj, hget⟩ := List.mem_iff_getElem.mp hl
  rw [List.length_take] at hj
  have hjk : j < k := lt_of_lt_of_le hj (min_le_left _ _)
  have hjL : j < L.length := lt_of_lt_of_le hj (min_le_right _ _)
  refine ⟨j, hjL, hjk, ?_⟩
  have : (L.take k)[j] = L[j] := List.getElem_take _
  rw [List.get_eq_getElem, ← this, hget]
  exact hdl

/-- The invariant of the Kahn drain loop (lines 224-245): levels and queue
hold distinct tracked tasks; the current in-degree of every task is its
dependency count minus the in-flow released by the drained levels; queued
tasks have in-degree zero; and every drained task had its full dependency
count released by strictly earlier levels. -/
structure TopoLoopInv (deps : DepMap) (g : DepMap) (levels : List (List String))
    (ind : List (String × Int)) (queue : List String) : Prop where
  nodupAll : (levels.join ++ queue).Nodup
  memKeys : ∀ t ∈ levels.join ++ queue, t ∈ keysOf deps
  keysIff : ∀ x, x ∈ keysOf ind ↔ x ∈ keysOf deps
  degEq : ∀ t ∈ keysOf deps, lookupA ind t =
    some (((depsOfD deps t).length : Int) - inflow g t levels.join)
  queueZero : ∀ t ∈ queue, ((depsOfD deps t).length : Int) = inflow g t levels.join
  levelDone : ∀ k, (hk : k < levels.length) → ∀ t ∈ levels.get ⟨k, hk⟩,
    ((depsOfD deps t).length : Int) = inflow g t ((levels.take k).join)

/-- One iteration of the Kahn drain loop preserves the invariant: the
nonempty queue is appended as the next level and the fold over
`processTask` yields the next in-degree map and queue. -/
theorem topoLoop_step (deps : DepMap) (hnd : (keysOf deps).Nodup)
    (levels : List (List String)) (ind : List (String × Int)) (queue : List String)
    (hinv : TopoLoopInv deps (topoInit deps).2 levels ind queue) :
    TopoLoopInv deps (topoInit deps).2 (levels ++ [queue])
      (queue.foldl (processTask (topoInit deps).2) (ind, [])).1
      (queue.foldl (processTask (topoInit deps).2) (ind, [])).2 := by
  set g := (topoInit deps).2 with hg
  set evs := (queue.map (fun d => (lookupA g d).getD [])).join with hevs
  have hfold := processLevel_eq g queue (ind, [])
  rw [← hevs] at hfold
  obtain ⟨hk, hsome, hnone, pushed, hpq, hpc, hpn⟩ := decFold_spec evs ind []
  have hcount : ∀ t, ((evs.count t : Int)) = inflow g t queue := by
    intro t
    rw [hevs, hg]
    exact count_flatten_inflow g queue t
  have hjoin : (levels ++ [queue]).join = levels.join ++ queue := by simp
  have hq2 : (queue.foldl (processTask g) (ind, [])).2 = pushed := by
    rw [hfold, hpq]
    exact List.nil_append pushed
  have hind1keys : keysOf (queue.foldl (processTask g) (ind, [])).1 = keysOf ind := by
    rw [hfold]
    exact hk
  have hind1some : ∀ t v, lookupA ind t = some v →
      lookupA (queue.foldl (processTask g) (ind, [])).1 t = some (v - (evs.count t : Int)) := by
    intro t v hv
    rw [hfold]
    exact hsome t v hv
  have hpushmem : ∀ t ∈ pushed, t ∈ keysOf deps := by
    intro t ht
    by_contra hnk
    have hlk : lookupA ind t = none := by
      rw [lookupA_eq_none_iff]
      intro hmem
      exact hnk ((hinv.keysIff t).mp hmem)
    exact (List.count_eq_zero.mp (hpn t hlk)) ht
  have hpnd : pushed.Nodup := by
    rw [List.nodup_iff_count_le_one]
    intro t
    cases hlk : lookupA ind t with
    | none => rw [hpn t hlk]; omega
    | some v =>
      rw [hpc t v hlk]
      split_ifs <;> omega
  have hdisj : ∀ t ∈ pushed, t ∉ levels.join ++ queue := by
    intro t htp hto
    have htk := hpushmem t htp
    have hvdef := hinv.degEq t htk
    have hc := hpc t _ hvdef
    have hpos : pushed.count t ≠ 0 := fun h0 => (List.count_eq_zero.mp h0) htp
    rw [hc] at hpos
    split_ifs at hpos with hcond
    · obtain ⟨h1, h2⟩ := hcond
      rcases List.mem_append.mp hto with hjm | hqm
      · obtain ⟨l, hl, htl⟩ := List.mem_join.mp hjm
        obtain ⟨kk, hkk, hgetl⟩ := List.mem_iff_getElem.mp hl
        have hdone := hinv.levelDone kk hkk t (by rw [List.get_eq_getElem, hgetl]; exact htl)
        have hle := inflow_prefix_le g t levels kk
        omega
      · have hz := hinv.queueZero t hqm
        omega
    · exact hpos rfl
  constructor
  · rw [hjoin, hq2]
    exact List.nodup_append.mpr ⟨hinv.nodupAll, hpnd, fun a ha hap => hdisj a hap ha⟩
  · intro t ht
    rw [hjoin, hq2] at ht
    rcases List.mem_append.mp ht with h1 | h2
    · exact hinv.memKeys t h1
    · exact hpushmem t h2
  · intro x
    rw [hind1keys]
    exact hinv.keysIff x
  · intro t ht
    have hv := hinv.degEq t ht
    have hres := hind1some t _ hv
    rw [hres, hjoin, inflow_append]
    congr 1
    rw [hcount t]
    ring
  · intro t ht
    rw [hq2] at ht
    have htk := hpushmem t ht
    have hvdef := hinv.degEq t htk
    have hc := hpc t _ hvdef
    have hpos : pushed.count t ≠ 0 := fun h0 => (List.count_eq_zero.mp h0) ht
    rw [hc] at hpos
    split_ifs at hpos with hcond
    · obtain ⟨h1, h2⟩ := hcond
      rw [hcount t] at h2
      have hb := inflow_le_len deps hnd t htk (levels.join ++ queue) hinv.nodupAll
      rw [← hg, inflow_append] at hb
      rw [hjoin, inflow_append]
      omega
    · exact absurd rfl hpos
  · intro k hk t ht
    have hklen : k < levels.length + 1 := by
      have := hk
      simpa using this
    by_cases hkl : k < levels.length
    · have hget : (levels ++ [queue]).get ⟨k, hk⟩ = levels.get ⟨k, hkl⟩ := by
        rw [List.get_eq_getElem, List.get_eq_getElem]
        exact List.getElem_append_left hkl
      rw [hget] at ht
      have htake : (levels ++ [queue]).take k = levels.take k := by
        rw [List.take_append_eq_append_take]
        have hz : k - levels.length = 0 := by omega
        rw [hz]
        simp
      rw [htake]
      exact hinv.levelDone k hkl t ht
    · have hkeq : k = levels.length := by omega
      subst hkeq
      have hget : (levels ++ [queue]).get ⟨levels.length, hk⟩ = queue := by
        rw [List.get_eq_getElem]
        rw [List.getElem_append_right (le_refl levels.length)]
        simp
      rw [hget] at ht
      have htake : (levels ++ [queue]).take levels.length = levels := List.take_left levels [queue]
      rw [htake]
      exact hinv.queueZero t ht

theorem TopoLoopInv.final {deps g : DepMap} {levels : List (List String)}
    {ind : List (String × Int)} {queue : List String}
    (hinv : TopoLoopInv deps g levels ind queue) :
    levels.join.Nodup ∧ (∀ t ∈ levels.join, t ∈ keysOf deps)
    ∧ (∀ k, (hk : k < levels.length) → ∀ t ∈ levels.get ⟨k, hk⟩,
        ((depsOfD deps t).length : Int) = inflow g t ((levels.take k).join)) := by
  refine ⟨(List.nodup_append.mp hinv.nodupAll).1, ?_, hinv.levelDone⟩
  intro t ht
  exact hinv.memKeys t (List.mem_append.mpr (Or.inl ht))

/-- The drain loop's final level list, at any fuel, inherits the invariant's
conclusions: distinct tracked tasks, and every drained task's full dependency
count released by strictly earlier levels. -/
theorem topoLoop_spec (deps : DepMap) (hnd : (keysOf deps).Nodup) :
    ∀ (f : Nat) (levels : List (List String)) (ind : List (String × Int)) (queue : List String),
    TopoLoopInv deps (topoInit deps).2 levels ind queue →
    (topoLoop (topoInit deps).2 f ind queue levels).join.Nodup
    ∧ (∀ t ∈ (topoLoop (topoInit deps).2 f ind queue levels).join, t ∈ keysOf deps)
    ∧ (∀ k, (hk : k < (topoLoop (topoInit deps).2 f ind queue levels).length) →
        ∀ t ∈ (topoLoop (topoInit deps).2 f ind queue levels).get ⟨k, hk⟩,
        ((depsOfD deps t).length : Int) =
          inflow (topoInit deps).2 t
            (((topoLoop (topoInit deps).2 f ind queue levels).take k).join)) := by
  intro f
  induction f with
  | zero =>
    intro levels ind queue hinv
    exact hinv.final
  | succ f ih =>
    intro levels ind queue hinv
    by_cases hqe : queue.isEmpty
    · have hred : topoLoop (topoInit deps).2 (f + 1) ind queue levels = levels := by
        simp [topoLoop, hqe]
      rw [hred]
      exact hinv.final
    · have hred : topoLoop (topoInit deps).2 (f + 1) ind queue levels =
        topoLoop (topoInit deps).2 f
          (queue.foldl (processTask (topoInit deps).2) (ind, [])).1
          (queue.foldl (processTask (topoInit deps).2) (ind, [])).2
          (levels ++ [queue]) := by
        simp [topoLoop, hqe]
      rw [hred]
      exact ih _ _ _ (topoLoop_step deps hnd levels ind queue hinv)

/-- The initial state of the drain loop satisfies the invariant: no levels
drained yet, the in-degree map fresh from `topoInit`, and the queue holding
exactly the zero-in-degree entries. -/
theorem topoInit_base_inv (deps : DepMap) (hnd : (keysOf deps).Nodup)
    (hclosed : ∀ p ∈ deps, ∀ d ∈ p.2, d ∈ keysOf deps) :
    TopoLoopInv deps (topoInit deps).2 [] (topoInit deps).1
      (((topoInit deps).1.filter (fun p => p.2 == 0)).map Prod.fst) := by
  have hkeysIff : ∀ x, x ∈ keysOf (topoInit deps).1 ↔ x ∈ keysOf deps := by
    intro x
    rw [topoInit_keys deps x]
    constructor
    · rintro (hx | ⟨p, hp, hd⟩)
      · exact hx
      · exact hclosed p hp x hd
    · exact Or.inl
  have hq0sub : ∀ t ∈ (((topoInit deps).1.filter (fun p => p.2 == 0)).map Prod.fst),
      t ∈ keysOf (topoInit deps).1 := by
    intro t ht
    obtain ⟨p, hpf, hfst⟩ := List.mem_map.mp ht
    have hpm : p ∈ (topoInit deps).1 := List.mem_of_mem_filter hpf
    exact hfst ▸ List.mem_map.mpr ⟨p, hpm, rfl⟩
  constructor
  · simp only [List.join_nil, List.nil_append]
    refine List.Nodup.sublist ?_ (topoInit_keys_nodup deps)
    exact List.Sublist.map Prod.fst (List.filter_sublist _)
  · intro t ht
    simp only [List.join_nil, List.nil_append] at ht
    exact (hkeysIff t).mp (hq0sub t ht)
  · exact hkeysIff
  · intro t ht
    rw [topoInit_deg deps hnd t ht]
    simp [inflow]
  · intro t ht
    obtain ⟨p, hpf, hfst⟩ := List.mem_map.mp ht
    have hpm : p ∈ (topoInit deps).1 := List.mem_of_mem_filter hpf
    have hz : p.2 = 0 := by
      have := List.of_mem_filter hpf
      simpa using this
    have hlk : lookupA (topoInit deps).1 p.1 = some p.2 :=
      lookupA_mem_of_nodup (topoInit_keys_nodup deps) hpm
    have htk : t ∈ keysOf deps := (hkeysIff t).mp (hq0sub t ht)
    have hdeg := topoInit_deg deps hnd t htk
    rw [← hfst] at hdeg
    rw [hlk] at hdeg
    have hval : p.2 = ((depsOfD deps p.1).length : Int) := by
      injection hdeg with hv
    rw [← hfst]
    rw [← hval, hz]
    simp [inflow]
  · intro k hk
    exact absurd hk (by simp)

/-- Successful `topological_sort`: the levels are disjoint and jointly
exhaust the key set, and every dependency of a drained task is released by
strictly earlier levels. -/
theorem topological_sort_ok (deps : DepMap) (hnd : (keysOf deps).Nodup)
    (hclosed : ∀ p ∈ deps, ∀ d ∈ p.2, d ∈ keysOf deps)
    (levels : List (List String))
    (h : topological_sort deps = .ok levels) :
    (∀ t, t ∈ levels.join ↔ t ∈ keysOf deps)
    ∧ levels.join.Nodup
    ∧ (∀ k, (hk : k < levels.length) → ∀ t ∈ levels.get ⟨k, hk⟩, ∀ d ∈ depsOfD deps t,
        ∃ j, ∃ (hj : j < levels.length), j < k ∧ d ∈ levels.get ⟨j, hj⟩) := by
  have hdef : topological_sort deps =
      (if (((topoLoop (topoInit deps).2 ((topoInit deps).1.length + 1) (topoInit deps).1
              (((topoInit deps).1.filter (fun p => p.2 == 0)).map Prod.fst) []).map
              List.length).sum ≠ deps.length) then
        .error (.configuration "Circular dependency detected in task graph")
      else
        .ok (topoLoop (topoInit deps).2 ((topoInit deps).1.length + 1) (topoInit deps).1
          (((topoInit deps).1.filter (fun p => p.2 == 0)).map Prod.fst) [])) := rfl
  rw [hdef] at h
  by_cases hcnt : (((topoLoop (topoInit deps).2 ((topoInit deps).1.length + 1) (topoInit deps).1
      (((topoInit deps).1.filter (fun p => p.2 == 0)).map Prod.fst) []).map
      List.length).sum ≠ deps.length)
  · rw [if_pos hcnt] at h
    exact absurd h (by simp)
  · rw [if_neg hcnt] at h
    have hLL : levels = topoLoop (topoInit deps).2 ((topoInit deps).1.length + 1)
        (topoInit deps).1
        (((topoInit deps).1.filter (fun p => p.2 == 0)).map Prod.fst) [] := by
      injection h with h'
      exact h'.symm
    obtain ⟨hnodup, hmem, hdone⟩ :=
      topoLoop_spec deps hnd ((topoInit deps).1.length + 1) [] (topoInit deps).1
        (((topoInit deps).1.filter (fun p => p.2 == 0)).map Prod.fst)
        (topoInit_base_inv deps hnd hclosed)
    rw [← hLL] at hnodup hmem hdone
    have hlen : levels.join.length = (keysOf deps).length := by
      rw [List.length_join]
      have hc : ((levels.map List.length).sum = deps.length) := by
        rw [hLL]
        exact not_ne_iff.mp hcnt
      rw [hc]
      simp [keysOf]
    have hperm : levels.join.Perm (keysOf deps) := by
      refine List.Subperm.perm_of_length_le ?_ (le_of_eq hlen.symm)
      exact List.subperm_of_subset hnodup (fun t ht => hmem t ht)
    refine ⟨fun t => hperm.mem_iff, hnodup, ?_⟩
    intro k hk t ht d hd
    have htj : t ∈ levels.join := List.mem_join.mpr ⟨levels.get ⟨k, hk⟩, List.get_mem _ _ _, ht⟩
    have htk : t ∈ keysOf deps := hmem t htj
    have htakend : ((levels.take k).join).Nodup := by
      have hsplit : levels.join = ((levels.take k).join) ++ ((levels.drop k).join) := by
        rw [← List.join_append, List.take_append_drop]
      rw [hsplit] at hnodup
      exact (List.nodup_append.mp hnodup).1
    have hfull := inflow_full deps hnd t htk ((levels.take k).join) htakend
      (hdone k hk t ht).symm
    exact mem_take_join_get (hfull d hd)

theorem collectRootsLoop_nil (allTasks : TaskMap) (fuel : Nat) (st : CollectState) :
    collectRootsLoop allTasks fuel [] st = .ok st := rfl

theorem collectRootsLoop_cons (allTasks : TaskMap) (fuel : Nat) (n : String)
    (rest : List String) (st : CollectState) :
    collectRootsLoop allTasks fuel (n :: rest) st =
      match collectDependencies allTasks fuel n st with
      | .error e => .error e
      | .ok st' => collectRootsLoop allTasks fuel rest st' := rfl

/-- Specification of the loop over requested roots (lines 125-133): on
success the invariant holds, every root is visited, and everything visited
is reachable from some root; fuel exhaustion cannot surface; and when every
root and everything reachable from it exists, errors are circular only. -/
theorem collectRootsLoop_spec (allTasks : TaskMap) (fuel : Nat)
    (hP : CollectSpec allTasks fuel) :
    ∀ (roots : List String) (st : CollectState), CollectPre allTasks st →
    (keysOf allTasks).length < fuel + st.stack.length →
    ((∀ st', collectRootsLoop allTasks fuel roots st = .ok st' →
        CollectInv allTasks st' ∧ st'.stack = st.stack ∧
        (∀ v ∈ st.visited, v ∈ st'.visited) ∧ (∀ r ∈ roots, r ∈ st'.visited) ∧
        (∀ v ∈ st'.visited, v ∈ st.visited ∨
          ∃ r ∈ roots, Relation.ReflTransGen (depEdge allTasks) r v))
     ∧ (∀ e, collectRootsLoop allTasks fuel roots st = .error e → e ≠ .fuelOut)
     ∧ ((∀ r ∈ roots, containsKey allTasks r = true ∧
          (∀ v, Relation.ReflTransGen (depEdge allTasks) r v → containsKey allTasks v = true)) →
        ∀ e, collectRootsLoop allTasks fuel roots st = .error e →
          ∃ msg, e = .configuration msg ∧ containsCircular msg = true)) := by
  intro roots
  induction roots with
  | nil =>
    intro st hpre hfuel
    refine ⟨?_, ?_, ?_⟩
    · intro st' hok
      rw [collectRootsLoop_nil] at hok
      injection hok with h2
      subst h2
      exact ⟨hpre.1, rfl, fun v hv => hv, fun r hr => absurd hr (List.not_mem_nil r),
        fun v hv => Or.inl hv⟩
    · intro e herr
      rw [collectRootsLoop_nil] at herr
      exact absurd herr (by simp)
    · intro _ e herr
      rw [collectRootsLoop_nil] at herr
      exact absurd herr (by simp)
  | cons r rest ihq =>
    intro st hpre hfuel
    rcases hc : collectDependencies allTasks fuel r st with e | st1
    · have hstep : collectRootsLoop allTasks fuel (r :: rest) st = .error e := by
        rw [collectRootsLoop_cons, hc]
      refine ⟨?_, ?_, ?_⟩
      · intro st' hok
        rw [hstep] at hok
        exact absurd hok (by simp)
      · intro e' herr
        rw [hstep] at herr
        injection herr with h2
        subst h2
        exact (hP r st hpre hfuel).2.1 e hc
      · intro hreach e' herr
        rw [hstep] at herr
        injection herr with h2
        subst h2
        exact (hP r st hpre hfuel).2.2 (hreach r (List.mem_cons_self r rest)).1
          (hreach r (List.mem_cons_self r rest)).2 e hc
    · have hstep : collectRootsLoop allTasks fuel (r :: rest) st =
          collectRootsLoop allTasks fuel rest st1 := by
        rw [collectRootsLoop_cons, hc]
      obtain ⟨hinv1, hstack1, hmono1, hrvis1, hsound1⟩ := (hP r st hpre hfuel).1 st1 hc
      have hpre1 : CollectPre allTasks st1 :=
        ⟨hinv1, by rw [hstack1]; exact hpre.2.1, by rw [hstack1]; exact hpre.2.2⟩
      have hfuel1 : (keysOf allTasks).length < fuel + st1.stack.length := by
        rw [hstack1]
        exact hfuel
      have ihrest := ihq st1 hpre1 hfuel1
      refine ⟨?_, ?_, ?_⟩
      · intro st' hok
        rw [hstep] at hok
        obtain ⟨hinv', hstack', hmono', hroots', hsound'⟩ := ihrest.1 st' hok
        refine ⟨hinv', by rw [hstack', hstack1], fun v hv => hmono' v (hmono1 v hv), ?_, ?_⟩
        · intro r0 hr0
          rcases List.mem_cons.mp hr0 with h | h
          · subst h
            exact hmono' r0 hrvis1
          · exact hroots' r0 h
        · intro v hv
          rcases hsound' v hv with h | ⟨r0, hr0, hrch⟩
          · rcases hsound1 v h with h2 | h2
            · exact Or.inl h2
            · exact Or.inr ⟨r, List.mem_cons_self r rest, h2⟩
          · exact Or.inr ⟨r0, List.mem_cons_of_mem r hr0, hrch⟩
      · intro e herr
        rw [hstep] at herr
        exact ihrest.2.1 e herr
      · intro hreach e herr
        rw [hstep] at herr
        exact ihrest.2.2 (fun r0 hr0 => hreach r0 (List.mem_cons_of_mem r hr0)) e herr

/-- Everything reachable from a visited task is visited (the `closed` field
of the invariant, iterated along the reflexive-transitive closure). -/
theorem visited_complete (allTasks : TaskMap) (st : CollectState)
    (hinv : CollectInv allTasks st) (r v : String) (hr : r ∈ st.visited)
    (hrch : Relation.ReflTransGen (depEdge allTasks) r v) : v ∈ st.visited := by
  induction hrch with
  | refl => exact hr
  | tail h1 h2 ih => exact hinv.closed _ ih _ h2

/-- The collected adjacency map is closed: dependency entries point back
into the map's key set. -/
theorem deps_closed (allTasks : TaskMap) (st : CollectState)
    (hinv : CollectInv allTasks st) :
    ∀ p ∈ st.taskDependencies, ∀ d ∈ p.2, d ∈ keysOf st.taskDependencies := by
  intro p hp d hd
  obtain ⟨cfg, hcfg, hp2⟩ := hinv.entriesWF p hp
  have hedge : depEdge allTasks p.1 d := ⟨cfg, hcfg, by rw [← hp2]; exact hd⟩
  have hp1 : p.1 ∈ keysOf st.taskDependencies := List.mem_map.mpr ⟨p, hp, rfl⟩
  have hp1v : p.1 ∈ st.visited := (hinv.keysVisited p.1).mp hp1
  exact (hinv.keysVisited d).mpr (hinv.closed p.1 hp1v d hedge)

/-- Each key of the collected adjacency map stores exactly the dependency
list of that task's configuration. -/
theorem deps_lookup (allTasks : TaskMap) (st : CollectState)
    (hinv : CollectInv allTasks st) (t : String)
    (ht : t ∈ keysOf st.taskDependencies) :
    ∃ cfg, lookupA allTasks t = some cfg ∧
      depsOfD st.taskDependencies t = cfg.dependencies.getD [] := by
  have hc : containsKey st.taskDependencies t = true :=
    (containsKey_iff_mem_keysOf _ t).mpr ht
  obtain ⟨ds, hds⟩ := lookupA_isSome_of_contains hc
  obtain ⟨cfg, hcfg, heq⟩ := hinv.entriesWF (t, ds) (mem_of_lookupA hds)
  exact ⟨cfg, hcfg, by rw [depsOfD, hds]; exact heq⟩

/-- A dependency edge starting inside the adjacency map's key set lands
inside it, and matches the stored dependency list. -/
theorem key_edge_closed (allTasks : TaskMap) (st : CollectState)
    (hinv : CollectInv allTasks st) (x y : String)
    (hx : x ∈ keysOf st.taskDependencies) (hxy : depEdge allTasks x y) :
    y ∈ keysOf st.taskDependencies ∧ y ∈ depsOfD st.taskDependencies x := by
  obtain ⟨cfg, hcfg, hdeq⟩ := deps_lookup allTasks st hinv x hx
  obtain ⟨cfg', hcfg', hy⟩ := hxy
  rw [hcfg] at hcfg'
  injection hcfg' with hcc
  subst hcc
  have hyd : y ∈ depsOfD st.taskDependencies x := by rw [hdeq]; exact hy
  have hc : containsKey st.taskDependencies x = true :=
    (containsKey_iff_mem_keysOf _ x).mpr hx
  obtain ⟨ds, hds⟩ := lookupA_isSome_of_contains hc
  have hdseq : depsOfD st.taskDependencies x = ds := by rw [depsOfD, hds]; rfl
  refine ⟨?_, hyd⟩
  exact deps_closed allTasks st hinv (x, ds) (mem_of_lookupA hds) y (by rw [← hdseq]; exact hyd)

def planStep (allTasks : TaskMap) (acc : TaskMap) (name : String) : TaskMap :=
  match lookupA allTasks name with
  | some cfg => insertA acc name cfg
  | none => acc

theorem planStep_fold_lookup (allTasks : TaskMap) :
    ∀ (names : List String) (acc : TaskMap) (x : String),
    lookupA (names.foldl (planStep allTasks) acc) x =
      if x ∈ names ∧ containsKey allTasks x = true then lookupA allTasks x
      else lookupA acc x := by
  intro names
  induction names with
  | nil =>
    intro acc x
    simp
  | cons n rest ih =>
    intro acc x
    rw [List.foldl_cons]
    rcases hn : lookupA allTasks n with _ | cfg
    · have hF : planStep allTasks acc n = acc := by
        simp only [planStep, hn]
      rw [hF, ih]
      by_cases hx : x = n
      · subst hx
        have hck : ¬ containsKey allTasks x = true := by
          simp [containsKey, hn]
        simp [hck]
      · simp [List.mem_cons, hx]
    · have hF : planStep allTasks acc n = insertA acc n cfg := by
        simp only [planStep, hn]
      rw [hF, ih, lookupA_insertA]
      by_cases hm : x ∈ rest ∧ containsKey allTasks x = true
      · rw [if_pos hm, if_pos ⟨List.mem_cons_of_mem n hm.1, hm.2⟩]
      · rw [if_neg hm]
        by_cases hx : x = n
        · subst hx
          have hck : containsKey allTasks x = true := by
            simp [containsKey, hn]
          rw [if_pos rfl, if_pos ⟨List.mem_cons_self x rest, hck⟩, hn]
        · rw [if_neg hx, if_neg ?_]
          rintro ⟨hmem, hck⟩
          rcases List.mem_cons.mp hmem with h | h
          · exact hx h
          · exact hm ⟨h, hck⟩

theorem planTasksOf_lookup (allTasks : TaskMap) (names : List String) (x : String) :
    lookupA (planTasksOf allTasks names) x =
      if x ∈ names ∧ containsKey allTasks x = true then lookupA allTasks x else none := by
  have heq : planTasksOf allTasks names = names.foldl (planStep allTasks) [] := rfl
  rw [heq, planStep_fold_lookup allTasks names [] x]
  rfl

theorem planTasksOf_keys (allTasks : TaskMap) (names : List String) (x : String) :
    x ∈ keysOf (planTasksOf allTasks names) ↔
      x ∈ names ∧ containsKey allTasks x = true := by
  rw [← containsKey_iff_mem_keysOf]
  constructor
  · intro h
    obtain ⟨v, hv⟩ := lookupA_isSome_of_contains h
    rw [planTasksOf_lookup] at hv
    by_cases hc : x ∈ names ∧ containsKey allTasks x = true
    · exact hc
    · rw [if_neg hc] at hv
      exact absurd hv (by simp)
  · rintro ⟨h1, h2⟩
    obtain ⟨v, hv⟩ := lookupA_isSome_of_contains h2
    refine contains_of_lookupA (v := v) ?_
    rw [planTasksOf_lookup, if_pos ⟨h1, h2⟩]
    exact hv

theorem build_ok_parts (allTasks : TaskMap) (taskNames : List String)
    (plan : TaskExecutionPlan)
    (h : build_execution_plan allTasks taskNames = .ok plan) :
    firstMissingRoot allTasks taskNames = none ∧
    ∃ st, collectRootsLoop allTasks (allTasks.length + 1) taskNames ⟨[], [], []⟩ = .ok st ∧
      topological_sort st.taskDependencies = .ok plan.levels ∧
      plan.tasks = planTasksOf allTasks (keysOf st.taskDependencies) := by
  rcases hm : firstMissingRoot allTasks taskNames with _ | missing
  · rcases hc : collectRootsLoop allTasks (allTasks.length + 1) taskNames ⟨[], [], []⟩
        with e | st
    · have hred : build_execution_plan allTasks taskNames = .error e := by
        unfold build_execution_plan
        rw [hm, hc]
      rw [hred] at h
      exact absurd h (by simp)
    · rcases ht : topological_sort st.taskDependencies with e | levels
      · have hred : build_execution_plan allTasks taskNames = .error e := by
          unfold build_execution_plan
          rw [hm, hc]
          show (match topological_sort st.taskDependencies with
            | Except.error e => Except.error e
            | Except.ok levels =>
              Except.ok (⟨levels, planTasksOf allTasks (keysOf st.taskDependencies)⟩ :
                TaskExecutionPlan)) = _
          rw [ht]
        rw [hred] at h
        exact absurd h (by simp)
      · have hred : build_execution_plan allTasks taskNames =
            .ok ⟨levels, planTasksOf allTasks (keysOf st.taskDependencies)⟩ := by
          unfold build_execution_plan
          rw [hm, hc]
          show (match topological_sort st.taskDependencies with
            | Except.error e => Except.error e
            | Except.ok levels =>
              Except.ok (⟨levels, planTasksOf allTasks (keysOf st.taskDependencies)⟩ :
                TaskExecutionPlan)) = _
          rw [ht]
        rw [hred] at h
        injection h with h2
        subst h2
        exact ⟨rfl, st, rfl, ht, rfl⟩
  · have hred : build_execution_plan allTasks taskNames =
        .error (.configuration ("Task '" ++ missing ++ "' not found")) := by
      unfold build_execution_plan
      rw [hm]
    rw [hred] at h
    exact absurd h (by simp)

theorem firstMissingRoot_none (allTasks : TaskMap) :
    ∀ (names : List String), (∀ n ∈ names, containsKey allTasks n = true) →
    firstMissingRoot allTasks names = none := by
  intro names
  induction names with
  | nil => intro _; rfl
  | cons n rest ih =>
    intro hall
    rw [firstMissingRoot, if_pos (hall n (List.mem_cons_self n rest))]
    exact ih (fun m hm => hall m (List.mem_cons_of_mem n hm))

theorem topological_sort_error (deps : DepMap) (e : ExecError)
    (h : topological_sort deps = .error e) :
    e = .configuration "Circular dependency detected in task graph" := by
  have hdef : topological_sort deps =
      (if (((topoLoop (topoInit deps).2 ((topoInit deps).1.length + 1) (topoInit deps).1
              (((topoInit deps).1.filter (fun p => p.2 == 0)).map Prod.fst) []).map
              List.length).sum ≠ deps.length) then
        .error (.configuration "Circular dependency detected in task graph")
      else
        .ok (topoLoop (topoInit deps).2 ((topoInit deps).1.length + 1) (topoInit deps).1
          (((topoInit deps).1.filter (fun p => p.2 == 0)).map Prod.fst) [])) := rfl
  rw [hdef] at h
  by_cases hcnt : (((topoLoop (topoInit deps).2 ((topoInit deps).1.length + 1) (topoInit deps).1
      (((topoInit deps).1.filter (fun p => p.2 == 0)).map Prod.fst) []).map
      List.length).sum ≠ deps.length)
  · rw [if_pos hcnt] at h
    injection h with h2
    exact h2.symm
  · rw [if_neg hcnt] at h
    exact absurd h (by simp)

theorem topoLoop_prefix (g : DepMap) :
    ∀ (f : Nat) (ind : List (String × Int)) (q : List String) (levels : List (List String)),
    ∃ rest, topoLoop g f ind q levels = levels ++ rest := by
  intro f
  induction f with
  | zero =>
    intro ind q levels
    exact ⟨[], by simp [topoLoop]⟩
  | succ f ih =>
    intro ind q levels
    by_cases hqe : q.isEmpty
    · exact ⟨[], by simp [topoLoop, hqe]⟩
    · obtain ⟨rest, hrest⟩ := ih (q.foldl (processTask g) (ind, [])).1
        (q.foldl (processTask g) (ind, [])).2 (levels ++ [q])
      refine ⟨[q] ++ rest, ?_⟩
      have hred : topoLoop g (f + 1) ind q levels =
          topoLoop g f (q.foldl (processTask g) (ind, [])).1
            (q.foldl (processTask g) (ind, [])).2 (levels ++ [q]) := by
        simp [topoLoop, hqe]
      rw [hred, hrest, List.append_assoc]

/-- Decomposition of a successful `build_execution_plan`: the collect phase
produced a state satisfying the DFS invariant, every requested root is
visited, everything visited is reachable from a root, and the plan's parts
come from that state. -/
theorem plan_ok_spec (allTasks : TaskMap) (hnd : (keysOf allTasks).Nodup)
    (taskNames : List String) (plan : TaskExecutionPlan)
    (h : build_execution_plan allTasks taskNames = .ok plan) :
    ∃ st : CollectState,
      CollectInv allTasks st
      ∧ (∀ r ∈ taskNames, r ∈ st.visited)
      ∧ (∀ v ∈ st.visited, ∃ r ∈ taskNames, Relation.ReflTransGen (depEdge allTasks) r v)
      ∧ topological_sort st.taskDependencies = .ok plan.levels
      ∧ plan.tasks = planTasksOf allTasks (keysOf st.taskDependencies) := by
  obtain ⟨hm, st, hc, ht, hp⟩ := build_ok_parts allTasks taskNames plan h
  have hinv0 : CollectInv allTasks ⟨[], [], []⟩ := by
    refine ⟨?_, ?_, ?_, ?_, ?_, ?_⟩ <;> simp [keysOf]
  have hpre : CollectPre allTasks ⟨[], [], []⟩ := ⟨hinv0, by simp, by simp⟩
  have hfuel : (keysOf allTasks).length <
      (allTasks.length + 1) + (⟨[], [], []⟩ : CollectState).stack.length := by
    simp [keysOf]
  have hspec := collectRootsLoop_spec allTasks (allTasks.length + 1)
    (collect_master allTasks (allTasks.length + 1)) taskNames ⟨[], [], []⟩ hpre hfuel
  obtain ⟨hinv, hstack, hmono, hroots, hsound⟩ := hspec.1 st hc
  refine ⟨st, hinv, hroots, ?_, ht, hp⟩
  intro v hv
  rcases hsound v hv with h0 | hr
  · exact absurd h0 (List.not_mem_nil v)
  · exact hr

theorem mem_level_mem_take_join {L : List (List String)} {k k' : Nat}
    (hk : k < L.length) (hkk : k < k') {t : String} (ht : t ∈ L.get ⟨k, hk⟩) :
    t ∈ (L.take k').join := by
  refine List.mem_join.mpr ⟨L.get ⟨k, hk⟩, ?_, ht⟩
  have hlen : k < (L.take k').length := by
    rw [List.length_take]
    omega
  refine List.mem_iff_getElem.mpr ⟨k, hlen, ?_⟩
  rw [List.get_eq_getElem]
  exact List.getElem_take _

theorem mem_drop_join {L : List (List String)} {k : Nat} (hk : k < L.length) {t : String}
    (ht : t ∈ L.get ⟨k, hk⟩) : t ∈ (L.drop k).join := by
  have hdrop : L.drop k = L[k] :: L.drop (k + 1) := List.drop_eq_getElem_cons hk
  rw [hdrop]
  refine List.mem_join.mpr ⟨L[k], List.mem_cons_self _ _, ?_⟩
  rw [List.get_eq_getElem] at ht
  exact ht

theorem level_lt_absurd {L : List (List String)} (hnodup : L.join.Nodup)
    {t : String} {k k' : Nat} (hk : k < L.length) (hk' : k' < L.length) (hkk : k < k')
    (h1 : t ∈ L.get ⟨k, hk⟩) (h2 : t ∈ L.get ⟨k', hk'⟩) : False := by
  have hsplit : L.join = ((L.take k').join) ++ ((L.drop k').join) := by
    rw [← List.join_append, List.take_append_drop]
  rw [hsplit] at hnodup
  have hdisj := (List.nodup_append.mp hnodup).2.2
  exact hdisj (mem_level_mem_take_join hk hkk h1) (mem_drop_join hk' h2)

/-- With pairwise-disjoint levels, a task's level index is unique. -/
theorem level_unique {L : List (List String)} (hnodup : L.join.Nodup)
    {t : String} {k k' : Nat} (hk : k < L.length) (hk' : k' < L.length)
    (h1 : t ∈ L.get ⟨k, hk⟩) (h2 : t ∈ L.get ⟨k', hk'⟩) : k = k' := by
  by_contra hne
  rcases Nat.lt_or_ge k k' with hlt | hge
  · exact level_lt_absurd hnodup hk hk' hlt h1 h2
  · have hlt : k' < k := by omega
    exact level_lt_absurd hnodup hk' hk hlt h2 h1

/-- A strict level ordering on dependencies rules out any cycle through the
key set: following a cycle would strictly descend the level index forever. -/
theorem transGen_no_cycle (deps : DepMap) (levels : List (List String))
    (hnodup : levels.join.Nodup)
    (hiff : ∀ t, t ∈ levels.join ↔ t ∈ keysOf deps)
    (hord : ∀ k, (hk : k < levels.length) → ∀ t ∈ levels.get ⟨k, hk⟩, ∀ d ∈ depsOfD deps t,
        ∃ j, ∃ (hj : j < levels.length), j < k ∧ d ∈ levels.get ⟨j, hj⟩)
    (edge : String → String → Prop)
    (hedge : ∀ x y, x ∈ keysOf deps → edge x y → y ∈ keysOf deps ∧ y ∈ depsOfD deps x)
    (c : String) (hc : c ∈ keysOf deps) (hcyc : Relation.TransGen edge c c) : False := by
  have hloc : ∀ x, x ∈ keysOf deps → ∃ k, ∃ (hk : k < levels.length), x ∈ levels.get ⟨k, hk⟩ := by
    intro x hx
    obtain ⟨l, hl, hxl⟩ := List.mem_join.mp ((hiff x).mpr hx)
    obtain ⟨k, hklen, hlk⟩ := List.mem_iff_getElem.mp hl
    refine ⟨k, hklen, ?_⟩
    rw [List.get_eq_getElem, hlk]
    exact hxl
  have hdesc : ∀ x y, Relation.TransGen edge x y → x ∈ keysOf deps →
      y ∈ keysOf deps ∧ (∀ (ky : Nat) (hky : ky < levels.length), y ∈ levels.get ⟨ky, hky⟩ →
        ∀ (kx : Nat) (hkx : kx < levels.length), x ∈ levels.get ⟨kx, hkx⟩ → ky < kx) := by
    intro x y htg
    induction htg with
    | single h1 =>
      intro hx
      obtain ⟨hyk, hyd⟩ := hedge x _ hx h1
      refine ⟨hyk, ?_⟩
      intro ky hky hymem kx hkx hxmem
      obtain ⟨j, hj, hjx, hymem'⟩ := hord kx hkx x hxmem _ hyd
      have hkyj : ky = j := level_unique hnodup hky hj hymem hymem'
      omega
    | tail h1 h2 ih =>
      intro hx
      obtain ⟨hbk, hfar⟩ := ih hx
      obtain ⟨hyk, hyd⟩ := hedge _ _ hbk h2
      refine ⟨hyk, ?_⟩
      intro ky hky hymem kx hkx hxmem
      obtain ⟨kb, hkb, hbmem⟩ := hloc _ hbk
      have hlt : kb < kx := hfar kb hkb hbmem kx hkx hxmem
      obtain ⟨j, hj, hjb, hymem'⟩ := hord kb hkb _ hbmem _ hyd
      have hkyj : ky = j := level_unique hnodup hky hj hymem hymem'
      omega
  obtain ⟨kc, hkc, hcm⟩ := hloc c hc
  have := (hdesc c c hcyc hc).2 kc hkc hcm kc hkc hcm
  omega

/-- C1: for every plan returned by `build_execution_plan` (on a task map
with distinct keys, as a Rust `HashMap` guarantees), for every task `t`
appearing in some level `k` and every dependency `d` of `t` that is present
in the plan's tasks map, `d` appears in some level `j` with `j < k`. -/
theorem C1_level_ordering (allTasks : TaskMap) (hnd : (keysOf allTasks).Nodup)
    (taskNames : List String) (plan : TaskExecutionPlan)
    (h : build_execution_plan allTasks taskNames = .ok plan)
    (k : Nat) (hk : k < plan.levels.length) (t : String)
    (ht : t ∈ plan.levels.get ⟨k, hk⟩)
    (cfg : TaskConfig) (hcfg : lookupA plan.tasks t = some cfg)
    (d : String) (hd : d ∈ cfg.dependencies.getD [])
    (hpres : containsKey plan.tasks d = true) :
    ∃ j, ∃ (hj : j < plan.levels.length), j < k ∧ d ∈ plan.levels.get ⟨j, hj⟩ := by
  obtain ⟨st, hinv, hroots, hsound, ht_topo, hptasks⟩ :=
    plan_ok_spec allTasks hnd taskNames plan h
  obtain ⟨hiff, hnodup, hord⟩ := topological_sort_ok st.taskDependencies hinv.keysNodup
    (deps_closed allTasks st hinv) plan.levels ht_topo
  have htj : t ∈ plan.levels.join := List.mem_join.mpr ⟨_, List.get_mem _ _ _, ht⟩
  have htk : t ∈ keysOf st.taskDependencies := (hiff t).mp htj
  obtain ⟨cfg', hcfg', hdeq⟩ := deps_lookup allTasks st hinv t htk
  rw [hptasks, planTasksOf_lookup,
    if_pos ⟨htk, contains_of_lookupA hcfg'⟩, hcfg'] at hcfg
  injection hcfg with hcc
  have hdd : d ∈ depsOfD st.taskDependencies t := by
    rw [hdeq, hcc]
    exact hd
  exact hord k hk t ht d hdd

theorem C1_level_ordering_witness :
    ∃ j, ∃ (hj : j < (TaskExecutionPlan.mk [["compile"], ["build"]]
      [("compile", { command := some "cc" }),
       ("build", { command := some "bb", dependencies := some ["compile"] })]).levels.length),
      j < 1 ∧ "compile" ∈ (TaskExecutionPlan.mk [["compile"], ["build"]]
        [("compile", { command := some "cc" }),
         ("build", { command := some "bb", dependencies := some ["compile"] })]).levels.get
          ⟨j, hj⟩ :=
  C1_level_ordering
    [("compile", { command := some "cc" }),
     ("build", { command := some "bb", dependencies := some ["compile"] })]
    (by decide) ["build"]
    (TaskExecutionPlan.mk [["compile"], ["build"]]
      [("compile", { command := some "cc" }),
       ("build", { command := some "bb", dependencies := some ["compile"] })])
    (by rfl) 1 (by decide) "build" (by decide)
    { command := some "bb", dependencies := some ["compile"] } (by decide)
    "compile" (by decide) (by decide)

/-- C9: for every successful `build_execution_plan` (on a task map with
distinct keys), membership in the union of the levels coincides with
membership in the plan's tasks map, which in turn coincides with being
reachable from the requested roots under the dependency relation; a
configured task unreachable from the roots is in neither. -/
theorem C9_plan_closure (allTasks : TaskMap) (hnd : (keysOf allTasks).Nodup)
    (taskNames : List String) (plan : TaskExecutionPlan)
    (h : build_execution_plan allTasks taskNames = .ok plan) (t : String) :
    (t ∈ plan.levels.join ↔ containsKey plan.tasks t = true)
    ∧ (containsKey plan.tasks t = true ↔ ReachableFrom allTasks taskNames t) := by
  obtain ⟨st, hinv, hroots, hsound, ht_topo, hptasks⟩ :=
    plan_ok_spec allTasks hnd taskNames plan h
  obtain ⟨hiff, hnodup, hord⟩ := topological_sort_ok st.taskDependencies hinv.keysNodup
    (deps_closed allTasks st hinv) plan.levels ht_topo
  have hkeys : containsKey plan.tasks t = true ↔ t ∈ keysOf st.taskDependencies := by
    rw [containsKey_iff_mem_keysOf, hptasks, planTasksOf_keys]
    constructor
    · exact fun hx => hx.1
    · intro hx
      obtain ⟨cfg, hcfg, _⟩ := deps_lookup allTasks st hinv t hx
      exact ⟨hx, contains_of_lookupA hcfg⟩
  have hvis : t ∈ keysOf st.taskDependencies ↔ ReachableFrom allTasks taskNames t := by
    rw [hinv.keysVisited t]
    constructor
    · intro hx
      obtain ⟨r, hr, hrch⟩ := hsound t hx
      exact ⟨r, hr, hrch⟩
    · rintro ⟨r, hr, hrch⟩
      exact visited_complete allTasks st hinv r t (hroots r hr) hrch
  constructor
  · rw [hkeys]
    exact hiff t
  · rw [hkeys]
    exact hvis

theorem C9_plan_closure_witness :
    (("b" : String) ∈ (TaskExecutionPlan.mk [["a"]]
        [("a", { command := some "aa" })]).levels.join
      ↔ containsKey (TaskExecutionPlan.mk [["a"]]
        [("a", { command := some "aa" })]).tasks "b" = true)
    ∧ (containsKey (TaskExecutionPlan.mk [["a"]]
        [("a", { command := some "aa" })]).tasks "b" = true
      ↔ ReachableFrom [("a", { command := some "aa" }), ("b", { command := some "bb" })]
          ["a"] "b") :=
  C9_plan_closure [("a", { command := some "aa" }), ("b", { command := some "bb" })]
    (by decide) ["a"]
    (TaskExecutionPlan.mk [["a"]] [("a", { command := some "aa" })])
    (by rfl) "b"

/-- C3 as stated is false on the code: this task map's dependency relation
restricted to the tasks reachable from the requested root has a cycle
(`a` depends on itself), yet `build_execution_plan` fails with the
missing-dependency message for `ghost`, which does not contain "circular":
the dependency-existence check at lines 184-188 fires before the recursive
call that would detect the cycle. -/
theorem C3_cex_cycle_masked :
    depEdge [("a", { command := some "x", dependencies := some ["ghost", "a"] })] "a" "a"
    ∧ ReachableFrom [("a", { command := some "x", dependencies := some ["ghost", "a"] })]
        ["a"] "a"
    ∧ build_execution_plan
        [("a", { command := some "x", dependencies := some ["ghost", "a"] })] ["a"]
        = .error (.configuration "Dependency 'ghost' of task 'a' not found")
    ∧ containsCircular "Dependency 'ghost' of task 'a' not found" = false := by
  refine ⟨⟨{ command := some "x", dependencies := some ["ghost", "a"] }, by decide, by decide⟩,
    ⟨"a", by decide, Relation.ReflTransGen.refl⟩, by rfl, by decide⟩

/-- C3 amended: when every requested root exists and every task reachable
from the roots exists, a cycle in the dependency relation among the
reachable tasks makes `build_execution_plan` fail with a configuration
error whose message contains "circular" (case-insensitive). -/
theorem C3_circular_error (allTasks : TaskMap) (hnd : (keysOf allTasks).Nodup)
    (taskNames : List String)
    (hroots : ∀ r ∈ taskNames, containsKey allTasks r = true)
    (hreach : ∀ t, ReachableFrom allTasks taskNames t → containsKey allTasks t = true)
    (c : String) (hc : ReachableFrom allTasks taskNames c)
    (hcyc : Relation.TransGen (depEdge allTasks) c c) :
    ∃ msg, build_execution_plan allTasks taskNames = .error (.configuration msg)
      ∧ containsCircular msg = true := by
  rcases hb : build_execution_plan allTasks taskNames with e | plan
  case ok =>
    exfalso
    obtain ⟨st, hinv, hroots', hsound, ht_topo, hptasks⟩ :=
      plan_ok_spec allTasks hnd taskNames plan hb
    obtain ⟨hiff, hnodup, hord⟩ := topological_sort_ok st.taskDependencies hinv.keysNodup
      (deps_closed allTasks st hinv) plan.levels ht_topo
    obtain ⟨r, hr, hrch⟩ := hc
    have hcv : c ∈ st.visited := visited_complete allTasks st hinv r c (hroots' r hr) hrch
    have hck : c ∈ keysOf st.taskDependencies := (hinv.keysVisited c).mpr hcv
    exact transGen_no_cycle st.taskDependencies plan.levels hnodup hiff hord
      (depEdge allTasks) (fun x y hx hxy => key_edge_closed allTasks st hinv x y hx hxy)
      c hck hcyc
  case error =>
    have hm : firstMissingRoot allTasks taskNames = none :=
      firstMissingRoot_none allTasks taskNames hroots
    suffices hsuf : ∃ msg, e = .configuration msg ∧ containsCircular msg = true by
      obtain ⟨msg, hmsg, hcirc⟩ := hsuf
      exact ⟨msg, by rw [hmsg], hcirc⟩
    rcases hcl : collectRootsLoop allTasks (allTasks.length + 1) taskNames ⟨[], [], []⟩
        with e' | st
    · have hred : build_execution_plan allTasks taskNames = .error e' := by
        unfold build_execution_plan
        rw [hm, hcl]
      rw [hred] at hb
      injection hb with he
      subst he
      have hinv0 : CollectInv allTasks ⟨[], [], []⟩ := by
        refine ⟨?_, ?_, ?_, ?_, ?_, ?_⟩ <;> simp [keysOf]
      have hpre : CollectPre allTasks ⟨[], [], []⟩ := ⟨hinv0, by simp, by simp⟩
      have hfuel : (keysOf allTasks).length <
          (allTasks.length + 1) + (⟨[], [], []⟩ : CollectState).stack.length := by
        simp [keysOf]
      exact (collectRootsLoop_spec allTasks (allTasks.length + 1)
        (collect_master allTasks (allTasks.length + 1)) taskNames ⟨[], [], []⟩ hpre hfuel).2.2
        (fun r hr => ⟨hroots r hr, fun v hv => hreach v ⟨r, hr, hv⟩⟩) e' hcl
    · rcases ht : topological_sort st.taskDependencies with e'' | levels
      · have hred : build_execution_plan allTasks taskNames = .error e'' := by
          unfold build_execution_plan
          rw [hm, hcl]
          show (match topological_sort st.taskDependencies with
            | Except.error e => Except.error e
            | Except.ok levels =>
              Except.ok (⟨levels, planTasksOf allTasks (keysOf st.taskDependencies)⟩ :
                TaskExecutionPlan)) = _
          rw [ht]
        rw [hred] at hb
        injection hb with he
        subst he
        exact ⟨"Circular dependency detected in task graph",
          topological_sort_error st.taskDependencies e'' ht, containsCircular_graph_msg⟩
      · have hred : build_execution_plan allTasks taskNames =
            .ok ⟨levels, planTasksOf allTasks (keysOf st.taskDependencies)⟩ := by
          unfold build_execution_plan
          rw [hm, hcl]
          show (match topological_sort st.taskDependencies with
            | Except.error e => Except.error e
            | Except.ok levels =>
              Except.ok (⟨levels, planTasksOf allTasks (keysOf st.taskDependencies)⟩ :
                TaskExecutionPlan)) = _
          rw [ht]
        rw [hred] at hb
        exact absurd hb (by simp)

theorem C3_circular_error_witness :
    ∃ msg, build_execution_plan
        [("a", { command := some "x", dependencies := some ["a"] })] ["a"]
        = .error (.configuration msg)
      ∧ containsCircular msg = true := by
  refine C3_circular_error
    [("a", { command := some "x", dependencies := some ["a"] })]
    (by decide) ["a"] (by decide) ?_ "a"
    ⟨"a", by decide, Relation.ReflTransGen.refl⟩
    (Relation.TransGen.single
      ⟨{ command := some "x", dependencies := some ["a"] }, by decide, by decide⟩)
  rintro t ⟨r, hr, hp⟩
  have hra : r = "a" := by simpa using hr
  subst hra
  have hta : ∀ u, Relation.ReflTransGen
      (depEdge [("a", { command := some "x", dependencies := some ["a"] })]) "a" u →
      u = "a" := by
    intro u hu
    induction hu with
    | refl => rfl
    | tail h1 h2 ih =>
      obtain ⟨cfg, hcfg, hmem⟩ := h2
      rw [ih] at hcfg
      have hc : cfg = { command := some "x", dependencies := some ["a"] } := by
        rw [show lookupA
            [("a", ({ command := some "x", dependencies := some ["a"] } : TaskConfig))] "a"
            = some { command := some "x", dependencies := some ["a"] } from by decide] at hcfg
        injection hcfg with h3
        exact h3.symm
      rw [hc] at hmem
      simpa using hmem
  rw [hta t hp]
  decide

/-- C6 as stated is false on the code: for the adjacency map with insertion
order `b, a, c`, the first emitted level is `["c", "a"]`, while the
insertion order of those names is `a` before `c` — the levels follow the
in-degree map's first-seen order (dependencies are seen while walking a
task's dependency list before later top-level keys), not the adjacency
map's insertion order. -/
theorem C6_cex_level_order :
    topological_sort [("b", ["c"]), ("a", []), ("c", [])] = .ok [["c", "a"], ["b"]]
    ∧ keysOf [("b", (["c"] : List String)), ("a", []), ("c", [])] = ["b", "a", "c"]
    ∧ (["b", "a", "c"].filter (fun x => ["c", "a"].contains x)) = ["a", "c"]
    ∧ (["c", "a"] : List String) ≠ ["a", "c"] :=
  ⟨by rfl, by decide, by decide, by decide⟩

/-- C6 amended: the order inside the levels is deterministic but follows the
in-degree map's key order (the order names are first seen while scanning
entries and their dependency lists), not the adjacency map's insertion
order: on success the first level is exactly the zero-in-degree entries of
the in-degree map in that map's order. -/
theorem C6_first_level_order (deps : DepMap) (levels : List (List String))
    (h : topological_sort deps = .ok levels) (hne : levels ≠ []) :
    levels.head? = some (((topoInit deps).1.filter (fun p => p.2 == 0)).map Prod.fst) := by
  have hdef : topological_sort deps =
      (if (((topoLoop (topoInit deps).2 ((topoInit deps).1.length + 1) (topoInit deps).1
              (((topoInit deps).1.filter (fun p => p.2 == 0)).map Prod.fst) []).map
              List.length).sum ≠ deps.length) then
        .error (.configuration "Circular dependency detected in task graph")
      else
        .ok (topoLoop (topoInit deps).2 ((topoInit deps).1.length + 1) (topoInit deps).1
          (((topoInit deps).1.filter (fun p => p.2 == 0)).map Prod.fst) [])) := rfl
  rw [hdef] at h
  by_cases hcnt : (((topoLoop (topoInit deps).2 ((topoInit deps).1.length + 1) (topoInit deps).1
      (((topoInit deps).1.filter (fun p => p.2 == 0)).map Prod.fst) []).map
      List.length).sum ≠ deps.length)
  · rw [if_pos hcnt] at h
    exact absurd h (by simp)
  · rw [if_neg hcnt] at h
    injection h with h2
    by_cases hq : (((topoInit deps).1.filter (fun p => p.2 == 0)).map Prod.fst).isEmpty = true
    · have hz : topoLoop (topoInit deps).2 ((topoInit deps).1.length + 1) (topoInit deps).1
          (((topoInit deps).1.filter (fun p => p.2 == 0)).map Prod.fst) [] = [] := by
        simp [topoLoop, hq]
      rw [hz] at h2
      exact absurd h2.symm hne
    · obtain ⟨rest, hrest⟩ := topoLoop_prefix (topoInit deps).2 ((topoInit deps).1.length)
        ((((topoInit deps).1.filter (fun p => p.2 == 0)).map Prod.fst).foldl
          (processTask (topoInit deps).2) ((topoInit deps).1, [])).1
        ((((topoInit deps).1.filter (fun p => p.2 == 0)).map Prod.fst).foldl
          (processTask (topoInit deps).2) ((topoInit deps).1, [])).2
        [((topoInit deps).1.filter (fun p => p.2 == 0)).map Prod.fst]
      have hred : topoLoop (topoInit deps).2 ((topoInit deps).1.length + 1) (topoInit deps).1
          (((topoInit deps).1.filter (fun p => p.2 == 0)).map Prod.fst) [] =
          topoLoop (topoInit deps).2 ((topoInit deps).1.length)
            ((((topoInit deps).1.filter (fun p => p.2 == 0)).map Prod.fst).foldl
              (processTask (topoInit deps).2) ((topoInit deps).1, [])).1
            ((((topoInit deps).1.filter (fun p => p.2 == 0)).map Prod.fst).foldl
              (processTask (topoInit deps).2) ((topoInit deps).1, [])).2
            [((topoInit deps).1.filter (fun p => p.2 == 0)).map Prod.fst] := by
        simp [topoLoop, hq]
      rw [hred, hrest] at h2
      rw [← h2]
      rfl

theorem C6_first_level_order_witness :
    ([["c", "a"], ["b"]] : List (List String)).head? =
      some (((topoInit [("b", ["c"]), ("a", []), ("c", [])]).1.filter
        (fun p => p.2 == 0)).map Prod.fst) :=
  C6_first_level_order [("b", ["c"]), ("a", []), ("c", [])] [["c", "a"], ["b"]]
    (by rfl) (by decide)
